import Mathlib

/-!
Shallow embedding of the buddy allocator in `buddy_allocator/src/lib.rs`
(together with the intrusive free-list of `header.rs`), and proofs of the
specified properties.

Modelling conventions:
* Addresses and sizes are `Nat`; the machine word is 64 bits wide, so the
  two's-complement idioms of the source (`!x + 1`) are rendered with an
  explicit `2 ^ 64`.
* `BlockHeader` is two 8-byte pointers, so `MIN_BLOCK_SIZE = 16` and
  `BASE_ORDER = 4` on the 64-bit target.
* Each per-order intrusive list is modelled by the list of node addresses
  hanging off its sentinel head: `BlockHeader.push` on the sentinel is
  `List.cons`, `pop_next` removes the head, and the arbitrary-position
  `pop` used during coalescing removes the first node with the searched
  address (`List.erase`).
* A Rust panic (out-of-bounds indexing into `free_list`) is modelled by the
  operation returning `none`.
-/

/-- Minimal block size allocatable: `size_of::<BlockHeader>()`, two 8-byte
pointers on the 64-bit target. -/
def MIN_BLOCK_SIZE : Nat := 16

/-- Fuel-driven count of trailing zero bits: one `if n % 2 = 1` test per
division by two, mirroring the hardware `trailing_zeros`. -/
def tzGo : Nat → Nat → Nat
  | 0, _ => 0
  | fuel + 1, n => if n % 2 = 1 then 0 else tzGo fuel (n / 2) + 1

/-- Rust `usize::trailing_zeros` (64-bit target): 64 on input 0, otherwise
the number of trailing zero bits.  `n` itself is always enough fuel. -/
def trailing_zeros (n : Nat) : Nat := if n = 0 then 64 else tzGo n n

/-- Order of the minimal block size: `MIN_BLOCK_SIZE.trailing_zeros()`. -/
def BASE_ORDER : Nat := trailing_zeros MIN_BLOCK_SIZE

/-- Doubling search of Rust `usize::next_power_of_two`: starting from
`power = 1`, double until `power ≥ n`.  Fuel bounds the number of
doublings; `n` itself is always enough. -/
def npotGo (n : Nat) : Nat → Nat → Nat
  | 0, power => power
  | fuel + 1, power => if power < n then npotGo n fuel (power * 2) else power

/-- Rust `usize::next_power_of_two`: the least power of two `≥ n` (and 1 on
input 0). -/
def next_power_of_two (n : Nat) : Nat := npotGo n n 1

/-- Lowest set bit, translating the source idiom `start & (!start + 1)`:
two's-complement negation on the 64-bit target is `(2 ^ 64 - a) % 2 ^ 64`. -/
def lowBit (a : Nat) : Nat := a &&& ((2 ^ 64 - a) % 2 ^ 64)

/-- Read entry `i` of the free-list array (`[]` when out of range; in-range
uses are guarded separately, matching the panicking Rust indexing). -/
def getL : List (List Nat) → Nat → List Nat
  | [], _ => []
  | l :: _, 0 => l
  | _ :: ls, i + 1 => getL ls i

/-- Write entry `i` of the free-list array (no-op out of range). -/
def setL : List (List Nat) → Nat → List Nat → List (List Nat)
  | [], _, _ => []
  | _ :: ls, 0, x => x :: ls
  | l :: ls, i + 1, x => l :: setL ls i x

/-- The allocator state: one list of free node addresses per order, plus
the registered total.  `ORDERS` is `free_list.length`. -/
structure Allocator where
  free_list : List (List Nat)
  total_size : Nat
deriving DecidableEq, Repr

/-- Maximum block size allocatable: `1 << (ORDERS + BASE_ORDER - 1)`. -/
def MAX_BLOCK_SIZE (orders : Nat) : Nat := 2 ^ (orders + BASE_ORDER - 1)

/-- Create an allocator with no memory yet (`Allocator::new`). -/
def Allocator.new (orders : Nat) : Allocator :=
  { free_list := List.replicate orders [], total_size := 0 }

/-- Block size derived from a layout, common to `allocate` and
`deallocate`: `MIN_BLOCK_SIZE.max(layout.size().next_power_of_two()).max(layout.align())`. -/
def block_size (size align : Nat) : Nat :=
  max (max MIN_BLOCK_SIZE (next_power_of_two size)) align

/-- One split (`Allocator::split_block`): pop the head of order `index`,
push its upper half (`block + 2 ^ (index + BASE_ORDER - 1)`) and then the
block itself one order lower.  Callers guarantee `1 ≤ index < ORDERS`. -/
def split_block (a : Allocator) (index : Nat) : Allocator :=
  match getL a.free_list index with
  | [] => a
  | block :: rest =>
      let bs := 2 ^ (index + BASE_ORDER - 1)
      let buddy := block + bs
      let fl1 := setL a.free_list index rest
      let fl2 := setL fl1 (index - 1) (buddy :: getL fl1 (index - 1))
      { a with free_list := setL fl2 (index - 1) (block :: getL fl2 (index - 1)) }

/-- The split cascade of `allocate`: `for j in (index + 1..i + 1).rev()`,
split at `j`.  The second argument runs from `i` down to `index + 1`. -/
def splitCascade (index : Nat) : Nat → Allocator → Allocator
  | 0, a => a
  | j + 1, a =>
      if index + 1 ≤ j + 1 then splitCascade index j (split_block a (j + 1)) else a

/-- The scan loop of `allocate`: `for i in index..ORDERS`, skip empty
lists, then run the split cascade from the first non-empty order `i` and
break.  When every list in range is empty the loop falls through with the
state untouched. -/
def allocSearch (a : Allocator) (index : Nat) : Allocator :=
  match (List.range' index (a.free_list.length - index)).find?
      (fun i => !(getL a.free_list i).isEmpty) with
  | some i => splitCascade index i a
  | none => a

/-- Allocate (`Allocator::allocate`).  Returns `none` on a Rust panic (the
final `self.free_list[index]` with `index ≥ ORDERS`); otherwise
`some (result, new state)` where `result` is the returned pointer
(`none` when the free list was empty or the popped address was null). -/
def allocate (a : Allocator) (size align : Nat) : Option (Option Nat × Allocator) :=
  let index := trailing_zeros (block_size size align) - BASE_ORDER
  let a1 := allocSearch a index
  if index < a1.free_list.length then
    match getL a1.free_list index with
    | [] => some (none, a1)
    | x :: rest =>
        some (if x = 0 then none else some x,
          { a1 with free_list := setL a1.free_list index rest })
  else none

/-- The coalescing loop of `deallocate`: the Rust code walks the `ORDERS -
index` lists from `index` upward; at each it searches the list for
`block ^ (1 << (index + BASE_ORDER))`, and on a hit removes that node,
keeps the smaller address and moves one order up, otherwise stops. -/
def coalesceGo : Nat → Nat → Nat → List (List Nat) → List (List Nat) × Nat × Nat
  | 0, block, index, fl => (fl, block, index)
  | steps + 1, block, index, fl =>
      let buddy := block ^^^ 2 ^ (index + BASE_ORDER)
      let l := getL fl index
      if buddy ∈ l then
        coalesceGo steps (min block buddy) (index + 1) (setL fl index (l.erase buddy))
      else (fl, block, index)

/-- Deallocate (`Allocator::deallocate`).  Returns `none` on a Rust panic:
the final `self.free_list[index].push` with `index ≥ ORDERS`. -/
def deallocate (a : Allocator) (ptr size align : Nat) : Option Allocator :=
  let index := trailing_zeros (block_size size align) - BASE_ORDER
  let r := coalesceGo (a.free_list.length - index) ptr index a.free_list
  if r.2.2 < r.1.length then
    some { a with free_list := setL r.1 r.2.2 (r.2.1 :: getL r.1 r.2.2) }
  else none

/-- The tiling loop of `add_memory`.  Each iteration takes the largest
block that is no bigger than `MAX_BLOCK_SIZE`, aligned for the current
start, and fitting the remaining span, then pushes it at its order.
Fuel only bounds the iteration count (`e` is always enough).  `none`
models the panicking `free_list[order]` access: `order ≥ orders` happens
exactly when `size` underflows the minimum (and a zero `size`, possible
only for a null start, makes the Rust order `60 ≥ ORDERS`, since
`ORDERS ≤ 60` whenever `MAX_BLOCK_SIZE` fits in `usize`). -/
def addLoop (orders : Nat) : Nat → List (List Nat) → Nat → Nat → Option (List (List Nat) × Nat)
  | 0, fl, start, e => if start + MIN_BLOCK_SIZE ≤ e then none else some (fl, 0)
  | fuel + 1, fl, start, e =>
      if start + MIN_BLOCK_SIZE ≤ e then
        let size := min (min (MAX_BLOCK_SIZE orders) (lowBit start))
          (next_power_of_two (e - start + 1) >>> 1)
        let order := trailing_zeros size - BASE_ORDER
        if 0 < size ∧ BASE_ORDER ≤ trailing_zeros size ∧ order < orders then
          match addLoop orders fuel (setL fl order (start :: getL fl order)) (start + size) e with
          | none => none
          | some (fl', added) => some (fl', size + added)
        else none
      else some (fl, 0)

/-- Add a memory pool (`Allocator::add_memory`): round `start` up and the
exclusive end down to multiples of `MIN_BLOCK_SIZE` (the masks translate
`& (!MIN_BLOCK_SIZE + 1)` on the 64-bit target), then tile the span. -/
def add_memory (a : Allocator) (start len : Nat) : Option (Allocator × Nat) :=
  let s1 := (start + MIN_BLOCK_SIZE - 1) &&& (2 ^ 64 - MIN_BLOCK_SIZE)
  let e := (start + len) &&& (2 ^ 64 - MIN_BLOCK_SIZE)
  match addLoop a.free_list.length e a.free_list s1 e with
  | none => none
  | some (fl, added) =>
      some ({ free_list := fl, total_size := a.total_size + added }, added)

/-- Sum of the sizes of the blocks on the free lists, the first list being
order `o`: block size at order `i` is `MIN_BLOCK_SIZE * 2 ^ i`. -/
def freeSumFrom : Nat → List (List Nat) → Nat
  | _, [] => 0
  | o, l :: ls => l.length * (MIN_BLOCK_SIZE * 2 ^ o) + freeSumFrom (o + 1) ls

/-- Sum of the sizes of all blocks currently on the free lists. -/
def freeSum (fl : List (List Nat)) : Nat := freeSumFrom 0 fl

/-- Sum of the sizes of the currently allocated blocks. -/
def allocSum : List (Nat × Nat) → Nat
  | [] => 0
  | (_, b) :: rest => b + allocSum rest

/-- Invariant on the free lists: every address on order `i`'s list is a
nonzero multiple of that order's block size. -/
def GoodLists (fl : List (List Nat)) : Prop :=
  ∀ i x, x ∈ getL fl i → 2 ^ (i + BASE_ORDER) ∣ x ∧ x ≠ 0

/-! ### Reachable configurations -/

/-- A configuration: the allocator state, the multiset of live allocations
(address together with derived block size), and the total returned by the
`add_memory` calls so far. -/
structure Config where
  alc : Allocator
  live : List (Nat × Nat)
  added : Nat

/-- Invariant on the live allocations: the derived block size divides the
address and the address is nonzero (the `NonNull` guarantee). -/
def GoodLive (live : List (Nat × Nat)) : Prop :=
  ∀ p, p ∈ live → p.2 ∣ p.1 ∧ p.1 ≠ 0

/-- Configurations reachable through the allocator interface: any number
of pool registrations, allocations (`align` a power of two, as the Rust
`Layout` type guarantees) and contract-respecting deallocations (the freed
address is live, with a layout deriving the same block size).  Only calls
that return (rather than panic) extend a trace. -/
inductive Reachable : Config → Prop
  | init (orders : Nat) : Reachable ⟨Allocator.new orders, [], 0⟩
  | add_mem {c : Config} (start len : Nat) {a' : Allocator} {r : Nat} :
      Reachable c →
      add_memory c.alc start len = some (a', r) →
      Reachable ⟨a', c.live, c.added + r⟩
  | alloc_ok {c : Config} (sz al k addr : Nat) {a' : Allocator} :
      Reachable c → al = 2 ^ k →
      allocate c.alc sz al = some (some addr, a') →
      Reachable ⟨a', (addr, block_size sz al) :: c.live, c.added⟩
  | alloc_fail {c : Config} (sz al : Nat) {a' : Allocator} :
      Reachable c →
      allocate c.alc sz al = some (none, a') →
      Reachable ⟨a', c.live, c.added⟩
  | free_blk {c : Config} (sz al k addr : Nat) {a' : Allocator} :
      Reachable c → al = 2 ^ k →
      (addr, block_size sz al) ∈ c.live →
      deallocate c.alc addr sz al = some a' →
      Reachable ⟨a', c.live.erase (addr, block_size sz al), c.added⟩

/-- The inductive invariant: sound free lists and live records, and
conservation of bytes against the registered total. -/
def StateInv (c : Config) : Prop :=
  GoodLists c.alc.free_list ∧ GoodLive c.live ∧
  freeSum c.alc.free_list + allocSum c.live = c.added ∧
  c.alc.total_size = c.added

/-- The blocks laid down by one pass of the tiling loop: each block starts
where the previous one ended, is nonempty, and stays inside the span;
when the list ends, less than one minimal block remains. -/
def TilesFrom : Nat → Nat → List (Nat × Nat) → Prop
  | a, e, [] => ¬ (a + MIN_BLOCK_SIZE ≤ e)
  | a, e, (addr, sz) :: rest => addr = a ∧ 0 < sz ∧ a + sz ≤ e ∧ TilesFrom (a + sz) e rest

/-- Sum of the sizes of a block list. -/
def sizesSum : List (Nat × Nat) → Nat
  | [] => 0
  | (_, sz) :: rest => sz + sizesSum rest

/-- Push each block of the list onto the free list of its order, in order. -/
def pushBlocks : List (List Nat) → List (Nat × Nat) → List (List Nat)
  | fl, [] => fl
  | fl, (addr, sz) :: rest =>
      pushBlocks (setL fl (trailing_zeros sz - BASE_ORDER)
        (addr :: getL fl (trailing_zeros sz - BASE_ORDER))) rest

/-- Specification-side: `p` is the largest power of two dividing `a`. -/
def IsMaxPow2Dvd (a p : Nat) : Prop :=
  (∃ k, p = 2 ^ k) ∧ p ∣ a ∧ ∀ k, 2 ^ k ∣ a → 2 ^ k ≤ p

/-- Specification-side: `p` is the largest power of two not exceeding `L`. -/
def IsMaxPow2Le (L p : Nat) : Prop :=
  (∃ k, p = 2 ^ k) ∧ p ≤ L ∧ ∀ k, 2 ^ k ≤ L → 2 ^ k ≤ p

/-- Drive `n` allocations of the one-byte layout, collecting the returned
addresses (`none` if any call panics or fails to return an address). -/
def allocMany : Nat → Allocator → Option (List Nat × Allocator)
  | 0, a => some ([], a)
  | n + 1, a =>
      match allocate a 1 1 with
      | some (some x, a') =>
          match allocMany n a' with
          | some (xs, a'') => some (x :: xs, a'')
          | none => none
      | _ => none

/-- Deallocate the listed addresses in order, each with the one-byte
layout (`none` if any call panics). -/
def deallocSeq : List Nat → Allocator → Option Allocator
  | [], a => some a
  | x :: xs, a =>
      match deallocate a x 1 1 with
      | some a' => deallocSeq xs a'
      | none => none

/-! ### Characterization of the fuel-driven bit helpers -/

@[simp] theorem BASE_ORDER_eq : BASE_ORDER = 4 := rfl

theorem tzGo_congr (n : Nat) : ∀ f₁ f₂, 0 < n → n ≤ f₁ → n ≤ f₂ → tzGo f₁ n = tzGo f₂ n := by
  induction n using Nat.strong_induction_on with
  | _ n ih =>
    intro f₁ f₂ hn h1 h2
    obtain ⟨g₁, rfl⟩ : ∃ g, f₁ = g + 1 := ⟨f₁ - 1, by omega⟩
    obtain ⟨g₂, rfl⟩ : ∃ g, f₂ = g + 1 := ⟨f₂ - 1, by omega⟩
    simp only [tzGo]
    by_cases hodd : n % 2 = 1
    · simp [hodd]
    · simp only [hodd, if_false]
      have hrec := ih (n / 2) (by omega) g₁ g₂ (by omega) (by omega) (by omega)
      omega

theorem trailing_zeros_odd {n : Nat} (h : n % 2 = 1) : trailing_zeros n = 0 := by
  have hn : n ≠ 0 := by omega
  unfold trailing_zeros
  obtain ⟨g, hg⟩ : ∃ g, n = g + 1 := ⟨n - 1, by omega⟩
  simp only [hn, if_false]
  conv_lhs => rw [hg]
  rw [show tzGo (g + 1) (g + 1) = if (g + 1) % 2 = 1 then 0 else tzGo g ((g + 1) / 2) + 1 from rfl]
  rw [← hg]
  simp [h]

theorem trailing_zeros_two_mul {b : Nat} (hb : 0 < b) :
    trailing_zeros (2 * b) = trailing_zeros b + 1 := by
  have hn : 2 * b ≠ 0 := by omega
  have hb' : b ≠ 0 := by omega
  unfold trailing_zeros
  simp only [hn, hb', if_false]
  obtain ⟨g, hg⟩ : ∃ g, 2 * b = g + 1 := ⟨2 * b - 1, by omega⟩
  conv_lhs => rw [hg]
  rw [show tzGo (g + 1) (g + 1) = if (g + 1) % 2 = 1 then 0 else tzGo g ((g + 1) / 2) + 1 from rfl]
  rw [← hg]
  have heven : ¬ (2 * b % 2 = 1) := by omega
  simp only [heven, if_false]
  have hdiv : 2 * b / 2 = b := by omega
  rw [hdiv, tzGo_congr b g b hb (by omega) le_rfl]

theorem trailing_zeros_two_pow (k : Nat) : trailing_zeros (2 ^ k) = k := by
  induction k with
  | zero => exact trailing_zeros_odd (by norm_num)
  | succ k ih =>
      rw [pow_succ, mul_comm, trailing_zeros_two_mul (Nat.pos_pow_of_pos k (by norm_num)), ih]

theorem two_pow_trailing_zeros_dvd (n : Nat) (h : 0 < n) : 2 ^ trailing_zeros n ∣ n := by
  induction n using Nat.strong_induction_on with
  | _ n ih =>
    by_cases hodd : n % 2 = 1
    · rw [trailing_zeros_odd hodd]; simp
    · have h2 : n = 2 * (n / 2) := by omega
      have hpos : 0 < n / 2 := by omega
      rw [h2, trailing_zeros_two_mul hpos, pow_succ, mul_comm (2 ^ trailing_zeros (n / 2)) 2]
      exact Nat.mul_dvd_mul_left 2 (ih (n / 2) (by omega) hpos)

theorem npotGo_ge (n : Nat) : ∀ fuel power, 0 < power → n ≤ power * 2 ^ fuel →
    n ≤ npotGo n fuel power := by
  intro fuel
  induction fuel with
  | zero => intro power hp hle; simpa using hle
  | succ fuel ih =>
      intro power hp hle
      simp only [npotGo]
      by_cases hlt : power < n
      · simp only [hlt, if_true]
        refine ih (power * 2) (by omega) ?_
        rw [pow_succ, mul_comm (2 ^ fuel) 2, ← mul_assoc] at hle
        exact hle
      · simp only [hlt, if_false]; omega

theorem npotGo_pow (n : Nat) : ∀ fuel j, ∃ m, npotGo n fuel (2 ^ j) = 2 ^ m := by
  intro fuel
  induction fuel with
  | zero => intro j; exact ⟨j, rfl⟩
  | succ fuel ih =>
      intro j
      simp only [npotGo]
      by_cases hlt : 2 ^ j < n
      · simp only [hlt, if_true]
        obtain ⟨m, hm⟩ := ih (j + 1)
        exact ⟨m, by rw [← hm, pow_succ]⟩
      · exact ⟨j, by simp [hlt]⟩

theorem npotGo_le (n : Nat) : ∀ fuel j k, j ≤ k → n ≤ 2 ^ k → npotGo n fuel (2 ^ j) ≤ 2 ^ k := by
  intro fuel
  induction fuel with
  | zero => intro j k hjk _; exact Nat.pow_le_pow_right (by norm_num) hjk
  | succ fuel ih =>
      intro j k hjk hn
      simp only [npotGo]
      by_cases hlt : 2 ^ j < n
      · simp only [hlt, if_true]
        have hjk' : j < k := by
          by_contra hc
          have : j = k := by omega
          subst this; omega
        rw [← pow_succ]
        exact ih (j + 1) k (by omega) hn
      · simp only [hlt, if_false]
        exact Nat.pow_le_pow_right (by norm_num) hjk

theorem le_next_power_of_two (n : Nat) : n ≤ next_power_of_two n := by
  have := npotGo_ge n n 1 (by norm_num) (by simpa using Nat.le_of_lt (Nat.lt_two_pow n))
  simpa [next_power_of_two] using this

theorem next_power_of_two_pow (n : Nat) : ∃ m, next_power_of_two n = 2 ^ m := by
  have := npotGo_pow n n 0
  simpa [next_power_of_two] using this

theorem next_power_of_two_le {n k : Nat} (h : n ≤ 2 ^ k) : next_power_of_two n ≤ 2 ^ k := by
  have := npotGo_le n n 0 k (Nat.zero_le k) h
  simpa [next_power_of_two] using this

theorem next_power_of_two_two_pow (k : Nat) : next_power_of_two (2 ^ k) = 2 ^ k :=
  Nat.le_antisymm (next_power_of_two_le le_rfl) (le_next_power_of_two _)

theorem two_pow_max (a b : Nat) : max (2 ^ a) (2 ^ b) = 2 ^ max a b := by
  rcases le_total a b with h | h
  · rw [Nat.max_eq_right (Nat.pow_le_pow_right (by norm_num) h), Nat.max_eq_right h]
  · rw [Nat.max_eq_left (Nat.pow_le_pow_right (by norm_num) h), Nat.max_eq_left h]

theorem block_size_pow {size align : Nat} (h : ∃ j, align = 2 ^ j) :
    ∃ m, block_size size align = 2 ^ m ∧ BASE_ORDER ≤ m := by
  obtain ⟨j, rfl⟩ := h
  obtain ⟨k, hk⟩ := next_power_of_two_pow size
  refine ⟨max (max 4 k) j, ?_, by simp only [BASE_ORDER_eq]; omega⟩
  rw [block_size, hk, show MIN_BLOCK_SIZE = 2 ^ 4 from rfl, two_pow_max, two_pow_max]

theorem pow_min_block {m : Nat} (h : BASE_ORDER ≤ m) :
    MIN_BLOCK_SIZE * 2 ^ (m - BASE_ORDER) = 2 ^ m := by
  rw [show MIN_BLOCK_SIZE = 2 ^ BASE_ORDER from rfl, ← pow_add]
  congr 1
  omega

/-! ### Bit-level facts used by the buddy arithmetic -/

theorem testBit_false_of_dvd {x k : Nat} (h : 2 ^ (k + 1) ∣ x) : x.testBit k = false := by
  obtain ⟨q, rfl⟩ := h
  rw [Nat.testBit_mul_pow_two]
  simp

theorem or_two_pow_of_dvd {x k : Nat} (h : 2 ^ (k + 1) ∣ x) : x ||| 2 ^ k = x + 2 ^ k := by
  obtain ⟨q, rfl⟩ := h
  have hb : (2 : Nat) ^ k < 2 ^ (k + 1) := by
    have h0 : 0 < 2 ^ k := Nat.pos_pow_of_pos k (by norm_num)
    rw [pow_succ]; omega
  exact (Nat.mul_add_lt_is_or hb q).symm

theorem xor_two_pow_of_dvd {x k : Nat} (h : 2 ^ (k + 1) ∣ x) : x ^^^ 2 ^ k = x + 2 ^ k := by
  rw [← or_two_pow_of_dvd h]
  apply Nat.eq_of_testBit_eq
  intro i
  rw [Nat.testBit_xor, Nat.testBit_or]
  by_cases hik : k = i
  · subst hik
    rw [testBit_false_of_dvd h, Nat.testBit_two_pow_self]
    rfl
  · rw [Nat.testBit_two_pow_of_ne hik]
    cases x.testBit i <;> rfl

theorem xor_mul_two_pow {k a b : Nat} : (2 ^ k * a) ^^^ (2 ^ k * b) = 2 ^ k * (a ^^^ b) := by
  apply Nat.eq_of_testBit_eq
  intro i
  rw [Nat.testBit_xor, Nat.testBit_mul_pow_two, Nat.testBit_mul_pow_two,
    Nat.testBit_mul_pow_two, Nat.testBit_xor]
  by_cases h : i ≥ k <;> simp [h]

theorem xor_one_even {q : Nat} (h : q % 2 = 0) : q ^^^ 1 = q + 1 := by
  have hd : 2 ^ (0 + 1) ∣ q := by
    simpa using Nat.dvd_of_mod_eq_zero h
  simpa using xor_two_pow_of_dvd hd

theorem xor_one_odd {q : Nat} (h : q % 2 = 1) : q ^^^ 1 = q - 1 := by
  obtain ⟨c, rfl⟩ : ∃ c, q = 2 * c + 1 := ⟨q / 2, by omega⟩
  have h2 : (2 * c) ^^^ 1 = 2 * c + 1 := xor_one_even (by omega)
  calc (2 * c + 1) ^^^ 1 = ((2 * c) ^^^ 1) ^^^ 1 := by rw [h2]
    _ = (2 * c) ^^^ (1 ^^^ 1) := Nat.xor_assoc _ _ _
    _ = 2 * c := by simp
    _ = (2 * c + 1) - 1 := by omega

theorem xor_buddy_repr {x k : Nat} (h : 2 ^ k ∣ x) :
    x ^^^ 2 ^ k = 2 ^ k * ((x / 2 ^ k) ^^^ 1) := by
  obtain ⟨q, rfl⟩ := h
  have hq : 2 ^ k * q / 2 ^ k = q := by
    rw [Nat.mul_div_cancel_left q (Nat.pos_pow_of_pos k (by norm_num))]
  rw [hq, ← xor_mul_two_pow, mul_one]

theorem merge_min_align {x k : Nat} (h : 2 ^ k ∣ x) :
    2 ^ (k + 1) ∣ min x (x ^^^ 2 ^ k) := by
  have hrepr := xor_buddy_repr h
  obtain ⟨q, hx⟩ := h
  have hq : x / 2 ^ k = q := by
    rw [hx, Nat.mul_div_cancel_left q (Nat.pos_pow_of_pos k (by norm_num))]
  rw [hrepr, hq]
  by_cases hpar : q % 2 = 0
  · rw [xor_one_even hpar]
    have hmin : min x (2 ^ k * (q + 1)) = x := by
      rw [hx]
      exact Nat.min_eq_left (Nat.mul_le_mul_left _ (by omega))
    rw [hmin, hx, pow_succ]
    exact Nat.mul_dvd_mul_left _ (by omega)
  · have hpar' : q % 2 = 1 := by omega
    rw [xor_one_odd hpar']
    have hmin : min x (2 ^ k * (q - 1)) = 2 ^ k * (q - 1) := by
      rw [hx]
      exact Nat.min_eq_right (Nat.mul_le_mul_left _ (by omega))
    rw [hmin, pow_succ]
    exact Nat.mul_dvd_mul_left _ (by omega)

theorem land_two_mul (a b : Nat) : (2 * a) &&& (2 * b) = 2 * (a &&& b) := by
  apply Nat.eq_of_testBit_eq
  intro i
  cases i with
  | zero =>
      rw [Nat.testBit_and]
      simp [Nat.testBit_zero, Nat.mul_mod_right]
  | succ i =>
      rw [Nat.testBit_and, Nat.testBit_succ, Nat.testBit_succ, Nat.testBit_succ,
        Nat.mul_div_cancel_left a (by norm_num), Nat.mul_div_cancel_left b (by norm_num),
        Nat.mul_div_cancel_left (a &&& b) (by norm_num), Nat.testBit_and]

theorem land_two_mul_succ (a b : Nat) : (2 * a + 1) &&& (2 * b + 1) = 2 * (a &&& b) + 1 := by
  apply Nat.eq_of_testBit_eq
  intro i
  cases i with
  | zero =>
      rw [Nat.testBit_and]
      simp [Nat.testBit_zero, Nat.mul_add_mod]
  | succ i =>
      have hd1 : (2 * a + 1) / 2 = a := by omega
      have hd2 : (2 * b + 1) / 2 = b := by omega
      have hd3 : (2 * (a &&& b) + 1) / 2 = a &&& b := by omega
      rw [Nat.testBit_and, Nat.testBit_succ, Nat.testBit_succ, Nat.testBit_succ,
        hd1, hd2, hd3, Nat.testBit_and]

theorem land_comp_eq_zero (v c : Nat) (h : c ≤ 2 ^ v - 1) : c &&& (2 ^ v - 1 - c) = 0 := by
  have hpos : 0 < 2 ^ v := Nat.pos_pow_of_pos v (by norm_num)
  have hc : c < 2 ^ v := by omega
  apply Nat.eq_of_testBit_eq
  intro i
  have heq : 2 ^ v - 1 - c = 2 ^ v - (c + 1) := by omega
  rw [Nat.testBit_and, heq, Nat.testBit_two_pow_sub_succ hc i, Nat.zero_testBit]
  cases htc : c.testBit i <;> simp [htc]

theorem lowBit_spec : ∀ a, 0 < a → ∀ w, a < 2 ^ w → a &&& (2 ^ w - a) = 2 ^ trailing_zeros a := by
  intro a
  induction a using Nat.strong_induction_on with
  | _ a ih =>
    intro ha w hw
    by_cases hodd : a % 2 = 1
    · obtain ⟨c, rfl⟩ : ∃ c, a = 2 * c + 1 := ⟨a / 2, by omega⟩
      obtain ⟨v, rfl⟩ : ∃ v, w = v + 1 := by
        refine ⟨w - 1, ?_⟩
        rcases Nat.eq_zero_or_pos w with h0 | h0
        · subst h0; rw [pow_zero] at hw; omega
        · omega
      have hv : 0 < 2 ^ v := Nat.pos_pow_of_pos v (by norm_num)
      have hcv : c < 2 ^ v := by
        rw [pow_succ] at hw; omega
      have hsplit : 2 ^ (v + 1) - (2 * c + 1) = 2 * (2 ^ v - 1 - c) + 1 := by
        rw [pow_succ]; omega
      rw [hsplit, land_two_mul_succ, land_comp_eq_zero v c (by omega),
        trailing_zeros_odd hodd]
      simp
    · have hb : 0 < a / 2 := by omega
      have ha2 : a = 2 * (a / 2) := by omega
      obtain ⟨v, rfl⟩ : ∃ v, w = v + 1 := by
        refine ⟨w - 1, ?_⟩
        rcases Nat.eq_zero_or_pos w with h0 | h0
        · subst h0; rw [pow_zero] at hw; omega
        · omega
      have hsplit : 2 ^ (v + 1) - a = 2 * (2 ^ v - (a / 2)) := by
        rw [pow_succ]; omega
      have hav : a / 2 < 2 ^ v := by
        rw [pow_succ] at hw; omega
      calc a &&& (2 ^ (v + 1) - a)
          = (2 * (a / 2)) &&& (2 * (2 ^ v - (a / 2))) := by rw [← ha2, ← hsplit]
        _ = 2 * ((a / 2) &&& (2 ^ v - (a / 2))) := land_two_mul _ _
        _ = 2 * 2 ^ trailing_zeros (a / 2) := by rw [ih (a / 2) (by omega) hb v hav]
        _ = 2 ^ (trailing_zeros (a / 2) + 1) := by rw [pow_succ]; ring
        _ = 2 ^ trailing_zeros a := by
              conv_rhs => rw [ha2]
              rw [trailing_zeros_two_mul hb]

theorem lowBit_eq {a : Nat} (h0 : 0 < a) (hlt : a < 2 ^ 64) :
    lowBit a = 2 ^ trailing_zeros a := by
  unfold lowBit
  rw [Nat.mod_eq_of_lt (by omega)]
  exact lowBit_spec a h0 64 hlt

theorem testBit_div_pow (x : Nat) : ∀ k i, (x / 2 ^ k).testBit i = x.testBit (i + k) := by
  intro k
  induction k with
  | zero => intro i; simp
  | succ k ih =>
      intro i
      have hd : x / 2 ^ (k + 1) = x / 2 ^ k / 2 := by
        rw [Nat.div_div_eq_div_mul, ← pow_succ]
      rw [hd, Nat.testBit_div_two, ih (i + 1)]
      congr 1
      omega

theorem land_mask16 {x : Nat} (h : x < 2 ^ 64) : x &&& (2 ^ 64 - 16) = 16 * (x / 16) := by
  have hmask : (2 : Nat) ^ 64 - 16 = 2 ^ 4 * (2 ^ 60 - 1) := by norm_num
  have h16 : (16 : Nat) = 2 ^ 4 := by norm_num
  apply Nat.eq_of_testBit_eq
  intro i
  rw [Nat.testBit_and, hmask, Nat.testBit_mul_pow_two, h16, Nat.testBit_mul_pow_two]
  by_cases h4 : i ≥ 4
  · by_cases h64 : i < 64
    · rw [testBit_div_pow, Nat.testBit_two_pow_sub_one]
      have : i - 4 + 4 = i := by omega
      rw [this]
      simp [h4, show i - 4 < 60 by omega]
    · have hx : x.testBit i = false :=
        Nat.testBit_lt_two_pow (lt_of_lt_of_le h (Nat.pow_le_pow_right (by norm_num) (by omega)))
      rw [testBit_div_pow, Nat.testBit_two_pow_sub_one]
      have : i - 4 + 4 = i := by omega
      rw [this, hx]
      simp [show ¬ (i - 4 < 60) by omega]
  · simp [h4]

/-! ### Free-list array lemmas -/

theorem length_setL : ∀ (ls : List (List Nat)) (i : Nat) (x : List Nat),
    (setL ls i x).length = ls.length := by
  intro ls
  induction ls with
  | nil => intro i x; rfl
  | cons l ls ih =>
      intro i x
      cases i with
      | zero => rfl
      | succ i => simp [setL, ih]

theorem getL_setL_eq : ∀ (ls : List (List Nat)) (i : Nat) (x : List Nat), i < ls.length →
    getL (setL ls i x) i = x := by
  intro ls
  induction ls with
  | nil => intro i x h; simp at h
  | cons l ls ih =>
      intro i x h
      cases i with
      | zero => rfl
      | succ i => exact ih i x (by simpa using h)

theorem getL_setL_ne : ∀ (ls : List (List Nat)) (i j : Nat) (x : List Nat), i ≠ j →
    getL (setL ls i x) j = getL ls j := by
  intro ls
  induction ls with
  | nil => intro i j x _; cases i <;> rfl
  | cons l ls ih =>
      intro i j x hij
      cases i with
      | zero =>
          cases j with
          | zero => exact absurd rfl hij
          | succ j => rfl
      | succ i =>
          cases j with
          | zero => rfl
          | succ j => exact ih i j x (by omega)

theorem getL_of_ge : ∀ (ls : List (List Nat)) (i : Nat), ls.length ≤ i → getL ls i = [] := by
  intro ls
  induction ls with
  | nil => intro i _; rfl
  | cons l ls ih =>
      intro i h
      cases i with
      | zero => simp at h
      | succ i => exact ih i (by simpa using h)

theorem getL_replicate (n i : Nat) : getL (List.replicate n []) i = [] := by
  induction n generalizing i with
  | zero => rfl
  | succ n ih =>
      cases i with
      | zero => rfl
      | succ i => exact ih i

theorem listExt : ∀ (ls ls' : List (List Nat)), ls.length = ls'.length →
    (∀ i, getL ls i = getL ls' i) → ls = ls' := by
  intro ls
  induction ls with
  | nil =>
      intro ls' hlen _
      cases ls' with
      | nil => rfl
      | cons _ _ => simp at hlen
  | cons l ls ih =>
      intro ls' hlen hget
      cases ls' with
      | nil => simp at hlen
      | cons l' ls' =>
          have h0 : l = l' := hget 0
          have hr : ls = ls' := ih ls' (by simpa using hlen) (fun i => hget (i + 1))
          rw [h0, hr]

theorem setL_getL_self : ∀ (ls : List (List Nat)) (i : Nat), setL ls i (getL ls i) = ls := by
  intro ls
  induction ls with
  | nil => intro i; rfl
  | cons l ls ih =>
      intro i
      cases i with
      | zero => rfl
      | succ i => simp [setL, getL, ih]

/-! ### Sum accounting over the free lists -/

theorem freeSumFrom_setL : ∀ (ls : List (List Nat)) (o i : Nat) (x : List Nat), i < ls.length →
    freeSumFrom o (setL ls i x) + (getL ls i).length * (MIN_BLOCK_SIZE * 2 ^ (o + i)) =
      freeSumFrom o ls + x.length * (MIN_BLOCK_SIZE * 2 ^ (o + i)) := by
  intro ls
  induction ls with
  | nil => intro o i x h; simp at h
  | cons l ls ih =>
      intro o i x h
      cases i with
      | zero => simp [setL, getL, freeSumFrom]; ring
      | succ i =>
          have := ih (o + 1) i x (by simpa using h)
          simp only [setL, getL, freeSumFrom]
          have harr : o + 1 + i = o + (i + 1) := by omega
          rw [harr] at this
          omega

theorem freeSum_setL {ls : List (List Nat)} {i : Nat} {x : List Nat} (h : i < ls.length) :
    freeSum (setL ls i x) + (getL ls i).length * (MIN_BLOCK_SIZE * 2 ^ i) =
      freeSum ls + x.length * (MIN_BLOCK_SIZE * 2 ^ i) := by
  have := freeSumFrom_setL ls 0 i x h
  simpa [freeSum] using this

/-! ### Searching the first non-empty order -/

theorem find?_range'_eq_some {p : Nat → Bool} : ∀ (n t k : Nat), t ≤ k → k < t + n →
    (∀ j, t ≤ j → j < k → p j = false) → p k = true →
    (List.range' t n).find? p = some k := by
  intro n
  induction n with
  | zero => intro t k h1 h2 _ _; omega
  | succ n ih =>
      intro t k h1 h2 hbelow hk
      rw [List.range'_succ]
      by_cases htk : t = k
      · subst htk
        rw [List.find?_cons_of_pos _ hk]
      · rw [List.find?_cons_of_neg _ (by rw [hbelow t le_rfl (by omega)]; simp)]
        exact ih (t + 1) k (by omega) (by omega) (fun j hj1 hj2 => hbelow j (by omega) hj2) hk

theorem find?_range'_eq_none {p : Nat → Bool} : ∀ (n t : Nat),
    (∀ j, t ≤ j → j < t + n → p j = false) →
    (List.range' t n).find? p = none := by
  intro n
  induction n with
  | zero => intro t _; rfl
  | succ n ih =>
      intro t hall
      rw [List.range'_succ]
      rw [List.find?_cons_of_neg _ (by rw [hall t le_rfl (by omega)]; simp)]
      exact ih (t + 1) (fun j hj1 hj2 => hall j (by omega) (by omega))

/-! ### Frame lemmas: lengths and the registered total -/

theorem split_block_total (a : Allocator) (j : Nat) :
    (split_block a j).total_size = a.total_size := by
  unfold split_block
  split <;> rfl

theorem split_block_length (a : Allocator) (j : Nat) :
    (split_block a j).free_list.length = a.free_list.length := by
  unfold split_block
  split
  · rfl
  · simp [length_setL]

theorem splitCascade_total (idx : Nat) : ∀ (j : Nat) (a : Allocator),
    (splitCascade idx j a).total_size = a.total_size := by
  intro j
  induction j with
  | zero => intro a; rfl
  | succ j ih =>
      intro a
      unfold splitCascade
      split
      · rw [ih, split_block_total]
      · rfl

theorem splitCascade_length (idx : Nat) : ∀ (j : Nat) (a : Allocator),
    (splitCascade idx j a).free_list.length = a.free_list.length := by
  intro j
  induction j with
  | zero => intro a; rfl
  | succ j ih =>
      intro a
      unfold splitCascade
      split
      · rw [ih, split_block_length]
      · rfl

theorem allocSearch_total (a : Allocator) (idx : Nat) :
    (allocSearch a idx).total_size = a.total_size := by
  unfold allocSearch
  split
  · rw [splitCascade_total]
  · rfl

theorem allocSearch_length (a : Allocator) (idx : Nat) :
    (allocSearch a idx).free_list.length = a.free_list.length := by
  unfold allocSearch
  split
  · rw [splitCascade_length]
  · rfl

theorem allocate_total {a : Allocator} {sz al : Nat} {r : Option Nat} {a' : Allocator}
    (h : allocate a sz al = some (r, a')) : a'.total_size = a.total_size := by
  simp only [allocate] at h
  split at h
  · split at h
    · injection h with h2
      injection h2 with h3 h4
      rw [← h4]
      exact allocSearch_total a _
    · injection h with h2
      injection h2 with h3 h4
      rw [← h4]
      exact allocSearch_total a _
  · exact Option.noConfusion h

theorem allocate_length {a : Allocator} {sz al : Nat} {r : Option Nat} {a' : Allocator}
    (h : allocate a sz al = some (r, a')) : a'.free_list.length = a.free_list.length := by
  simp only [allocate] at h
  split at h
  · split at h
    · injection h with h2
      injection h2 with h3 h4
      rw [← h4]
      exact allocSearch_length a _
    · injection h with h2
      injection h2 with h3 h4
      rw [← h4]
      simp only [length_setL]
      exact allocSearch_length a _
  · exact Option.noConfusion h

theorem coalesceGo_length : ∀ (steps block index : Nat) (fl : List (List Nat)),
    (coalesceGo steps block index fl).1.length = fl.length := by
  intro steps
  induction steps with
  | zero => intro block index fl; rfl
  | succ steps ih =>
      intro block index fl
      simp only [coalesceGo]
      split
      · rw [ih, length_setL]
      · rfl

theorem deallocate_total {a : Allocator} {p sz al : Nat} {a' : Allocator}
    (h : deallocate a p sz al = some a') : a'.total_size = a.total_size := by
  simp only [deallocate] at h
  split at h
  · injection h with h2
    rw [← h2]
  · exact Option.noConfusion h

theorem deallocate_length {a : Allocator} {p sz al : Nat} {a' : Allocator}
    (h : deallocate a p sz al = some a') : a'.free_list.length = a.free_list.length := by
  simp only [deallocate] at h
  split at h
  · injection h with h2
    rw [← h2]
    simp only [length_setL]
    exact coalesceGo_length _ _ _ _
  · exact Option.noConfusion h

theorem addLoop_length {orders : Nat} : ∀ (fuel : Nat) (fl : List (List Nat)) (start e : Nat)
    (fl' : List (List Nat)) (added : Nat),
    addLoop orders fuel fl start e = some (fl', added) → fl'.length = fl.length := by
  intro fuel
  induction fuel with
  | zero =>
      intro fl start e fl' added h
      unfold addLoop at h
      split at h
      · exact Option.noConfusion h
      · injection h with h2
        injection h2 with h3 h4
        rw [← h3]
  | succ fuel ih =>
      intro fl start e fl' added h
      simp only [addLoop] at h
      split at h
      · split at h
        · split at h
          · exact Option.noConfusion h
          · rename_i fl2 added2 heq
            injection h with h2
            injection h2 with h3 h4
            rw [← h3]
            rw [ih _ _ _ _ _ heq, length_setL]
        · exact Option.noConfusion h
      · injection h with h2
        injection h2 with h3 h4
        rw [← h3]

theorem add_memory_total {a : Allocator} {start len : Nat} {a' : Allocator} {r : Nat}
    (h : add_memory a start len = some (a', r)) : a'.total_size = a.total_size + r := by
  simp only [add_memory] at h
  split at h
  · exact Option.noConfusion h
  · injection h with h2
    injection h2 with h3 h4
    rw [← h3, ← h4]

theorem add_memory_length {a : Allocator} {start len : Nat} {a' : Allocator} {r : Nat}
    (h : add_memory a start len = some (a', r)) :
    a'.free_list.length = a.free_list.length := by
  simp only [add_memory] at h
  split at h
  · exact Option.noConfusion h
  · rename_i fl added heq
    injection h with h2
    injection h2 with h3 h4
    rw [← h3]
    exact addLoop_length _ _ _ _ _ _ heq

/-! ### Alignment invariant and conservation, operation by operation -/

theorem two_pow_min (a b : Nat) : min (2 ^ a) (2 ^ b) = 2 ^ min a b := by
  rcases le_total a b with h | h
  · rw [Nat.min_eq_left (Nat.pow_le_pow_right (by norm_num) h), Nat.min_eq_left h]
  · rw [Nat.min_eq_right (Nat.pow_le_pow_right (by norm_num) h), Nat.min_eq_right h]

theorem setL_of_ge : ∀ (ls : List (List Nat)) (i : Nat) (x : List Nat), ls.length ≤ i →
    setL ls i x = ls := by
  intro ls
  induction ls with
  | nil => intro i x _; rfl
  | cons l ls ih =>
      intro i x h
      cases i with
      | zero => simp at h
      | succ i => simp [setL, ih i x (by simpa using h)]


theorem goodLists_setL_of {fl : List (List Nat)} {i : Nat} {x : List Nat}
    (hfl : GoodLists fl) (hx : ∀ y, y ∈ x → 2 ^ (i + BASE_ORDER) ∣ y ∧ y ≠ 0) :
    GoodLists (setL fl i x) := by
  intro j y hy
  by_cases hij : i = j
  · subst hij
    by_cases hlen : i < fl.length
    · rw [getL_setL_eq fl i x hlen] at hy
      exact hx y hy
    · rw [setL_of_ge fl i x (by omega)] at hy
      exact hfl i y hy
  · rw [getL_setL_ne fl i j x hij] at hy
    exact hfl j y hy

theorem split_block_good {a : Allocator} {j : Nat} (hj : 1 ≤ j)
    (hg : GoodLists a.free_list) : GoodLists (split_block a j).free_list := by
  unfold split_block
  split
  · exact hg
  · rename_i block rest hblock
    have hmem : block ∈ getL a.free_list j := by rw [hblock]; exact List.mem_cons_self _ _
    obtain ⟨hdvd, hne⟩ := hg j block hmem
    have hrest : ∀ y, y ∈ rest → 2 ^ (j + BASE_ORDER) ∣ y ∧ y ≠ 0 := by
      intro y hy
      exact hg j y (by rw [hblock]; exact List.mem_cons_of_mem _ hy)
    have hg1 : GoodLists (setL a.free_list j rest) := goodLists_setL_of hg hrest
    have hdvd' : 2 ^ (j - 1 + BASE_ORDER) ∣ block := by
      refine dvd_trans (Nat.pow_dvd_pow 2 (by omega)) hdvd
    have hbs : 2 ^ (j - 1 + BASE_ORDER) ∣ 2 ^ (j + BASE_ORDER - 1) := by
      refine Nat.pow_dvd_pow 2 (by omega)
    have hbuddy : 2 ^ (j - 1 + BASE_ORDER) ∣ block + 2 ^ (j + BASE_ORDER - 1) :=
      Nat.dvd_add hdvd' hbs
    have hbne : block + 2 ^ (j + BASE_ORDER - 1) ≠ 0 := by
      have := Nat.pos_pow_of_pos (j + BASE_ORDER - 1) (show 0 < 2 by norm_num)
      omega
    have hg2 : GoodLists (setL (setL a.free_list j rest) (j - 1)
        ((block + 2 ^ (j + BASE_ORDER - 1)) :: getL (setL a.free_list j rest) (j - 1))) := by
      refine goodLists_setL_of hg1 ?_
      intro y hy
      rcases List.mem_cons.mp hy with h1 | h1
      · subst h1; exact ⟨hbuddy, hbne⟩
      · exact hg1 (j - 1) y h1
    refine goodLists_setL_of hg2 ?_
    intro y hy
    rcases List.mem_cons.mp hy with h1 | h1
    · subst h1; exact ⟨hdvd', hne⟩
    · exact hg2 (j - 1) y h1

theorem splitCascade_good (idx : Nat) : ∀ (j : Nat) (a : Allocator),
    GoodLists a.free_list → GoodLists (splitCascade idx j a).free_list := by
  intro j
  induction j with
  | zero => intro a hg; exact hg
  | succ j ih =>
      intro a hg
      unfold splitCascade
      split
      · exact ih _ (split_block_good (by omega) hg)
      · exact hg

theorem allocSearch_good {a : Allocator} {idx : Nat} (hg : GoodLists a.free_list) :
    GoodLists (allocSearch a idx).free_list := by
  unfold allocSearch
  split
  · exact splitCascade_good _ _ _ hg
  · exact hg

theorem allocate_good {a : Allocator} {sz al : Nat} {r : Option Nat} {a' : Allocator}
    (h : allocate a sz al = some (r, a')) (hg : GoodLists a.free_list) :
    GoodLists a'.free_list := by
  simp only [allocate] at h
  split at h
  · split at h
    · injection h with h2
      injection h2 with h3 h4
      rw [← h4]
      exact allocSearch_good hg
    · rename_i x rest hxr
      injection h with h2
      injection h2 with h3 h4
      rw [← h4]
      refine goodLists_setL_of (allocSearch_good hg) ?_
      intro y hy
      exact allocSearch_good hg _ y (by rw [hxr]; exact List.mem_cons_of_mem _ hy)
  · exact Option.noConfusion h

theorem freeSum_push {l : List (List Nat)} {i : Nat} (y : Nat) (h : i < l.length) :
    freeSum (setL l i (y :: getL l i)) = freeSum l + MIN_BLOCK_SIZE * 2 ^ i := by
  have h2 := freeSum_setL (x := y :: getL l i) h
  rw [List.length_cons, add_mul, one_mul] at h2
  omega

theorem freeSum_pop {fl : List (List Nat)} {i : Nat} {y : Nat} {rest : List Nat}
    (h : i < fl.length) (hget : getL fl i = y :: rest) :
    freeSum (setL fl i rest) + MIN_BLOCK_SIZE * 2 ^ i = freeSum fl := by
  have h2 := freeSum_setL (x := rest) h
  rw [hget, List.length_cons, add_mul, one_mul] at h2
  omega

theorem freeSum_erase {fl : List (List Nat)} {i : Nat} {y : Nat}
    (h : i < fl.length) (hmem : y ∈ getL fl i) :
    freeSum (setL fl i ((getL fl i).erase y)) + MIN_BLOCK_SIZE * 2 ^ i = freeSum fl := by
  have h2 := freeSum_setL (x := (getL fl i).erase y) h
  rw [List.length_erase_of_mem hmem] at h2
  have hL : 0 < (getL fl i).length := List.length_pos_of_mem hmem
  have hrw : (getL fl i).length * (MIN_BLOCK_SIZE * 2 ^ i) =
      ((getL fl i).length - 1) * (MIN_BLOCK_SIZE * 2 ^ i) + MIN_BLOCK_SIZE * 2 ^ i := by
    have hsplit : (getL fl i).length = ((getL fl i).length - 1) + 1 := by omega
    conv_lhs => rw [hsplit]
    rw [add_mul, one_mul]
  rw [hrw] at h2
  omega

theorem weight_double {j : Nat} (hj : 1 ≤ j) :
    MIN_BLOCK_SIZE * 2 ^ j = 2 * (MIN_BLOCK_SIZE * 2 ^ (j - 1)) := by
  conv_lhs => rw [show j = j - 1 + 1 from by omega]
  rw [pow_succ]
  ring

theorem split_block_freeSum {a : Allocator} {j : Nat} (hj : 1 ≤ j)
    (hlen : j < a.free_list.length) :
    freeSum (split_block a j).free_list = freeSum a.free_list := by
  simp only [split_block]
  split
  · rfl
  · rename_i block rest hblock
    have h1 := freeSum_pop hlen hblock
    have hlen1 : j - 1 < (setL a.free_list j rest).length := by
      rw [length_setL]; omega
    have h2 := freeSum_push (l := setL a.free_list j rest) (i := j - 1)
      (block + 2 ^ (j + BASE_ORDER - 1)) hlen1
    have hlen2 : j - 1 < (setL (setL a.free_list j rest) (j - 1)
        ((block + 2 ^ (j + BASE_ORDER - 1)) :: getL (setL a.free_list j rest) (j - 1))).length := by
      rw [length_setL, length_setL]; omega
    have h3 := freeSum_push (l := setL (setL a.free_list j rest) (j - 1)
        ((block + 2 ^ (j + BASE_ORDER - 1)) :: getL (setL a.free_list j rest) (j - 1)))
      (i := j - 1) block hlen2
    have hw := weight_double hj
    simp only []
    omega

theorem splitCascade_freeSum (idx : Nat) : ∀ (j : Nat) (a : Allocator), j < a.free_list.length →
    freeSum (splitCascade idx j a).free_list = freeSum a.free_list := by
  intro j
  induction j with
  | zero => intro a _; rfl
  | succ j ih =>
      intro a hlen
      unfold splitCascade
      split
      · rw [ih (split_block a (j + 1)) (by rw [split_block_length]; omega),
          split_block_freeSum (by omega) hlen]
      · rfl

theorem allocSearch_freeSum (a : Allocator) (idx : Nat) :
    freeSum (allocSearch a idx).free_list = freeSum a.free_list := by
  unfold allocSearch
  split
  · rename_i i hfind
    have hmem := List.mem_of_find?_eq_some hfind
    obtain ⟨d, hd, hi⟩ := List.mem_range'.mp hmem
    exact splitCascade_freeSum idx i a (by omega)
  · rfl

theorem coalesceGo_spec : ∀ (steps block index : Nat) (fl : List (List Nat)),
    steps + index ≤ fl.length →
    GoodLists fl → 2 ^ (index + BASE_ORDER) ∣ block → block ≠ 0 →
    GoodLists (coalesceGo steps block index fl).1 ∧
    2 ^ ((coalesceGo steps block index fl).2.2 + BASE_ORDER) ∣ (coalesceGo steps block index fl).2.1 ∧
    (coalesceGo steps block index fl).2.1 ≠ 0 ∧
    index ≤ (coalesceGo steps block index fl).2.2 ∧
    (coalesceGo steps block index fl).1.length = fl.length ∧
    freeSum (coalesceGo steps block index fl).1 +
        MIN_BLOCK_SIZE * 2 ^ (coalesceGo steps block index fl).2.2 =
      freeSum fl + MIN_BLOCK_SIZE * 2 ^ index := by
  intro steps
  induction steps with
  | zero =>
      intro block index fl _ hg hdvd hne
      exact ⟨hg, hdvd, hne, le_rfl, rfl, rfl⟩
  | succ steps ih =>
      intro block index fl hlen hg hdvd hne
      simp only [coalesceGo]
      split
      · rename_i hmem
        have hidx : index < fl.length := by omega
        obtain ⟨hbd, hbne⟩ := hg index _ hmem
        have hmin_dvd : 2 ^ (index + 1 + BASE_ORDER) ∣
            min block (block ^^^ 2 ^ (index + BASE_ORDER)) := by
          have := merge_min_align (k := index + BASE_ORDER) hdvd
          rwa [show index + BASE_ORDER + 1 = index + 1 + BASE_ORDER from by omega] at this
        have hmin_ne : min block (block ^^^ 2 ^ (index + BASE_ORDER)) ≠ 0 := by
          have h1 : 0 < block := by omega
          have h2 : 0 < block ^^^ 2 ^ (index + BASE_ORDER) := by omega
          have := lt_min h1 h2
          omega
        have hg1 : GoodLists (setL fl index
            ((getL fl index).erase (block ^^^ 2 ^ (index + BASE_ORDER)))) := by
          refine goodLists_setL_of hg ?_
          intro y hy
          exact hg index y (List.mem_of_mem_erase hy)
        have hlen1 : steps + (index + 1) ≤ (setL fl index
            ((getL fl index).erase (block ^^^ 2 ^ (index + BASE_ORDER)))).length := by
          rw [length_setL]; omega
        have hrec := ih _ (index + 1) _ hlen1 hg1 hmin_dvd hmin_ne
        obtain ⟨rg, rdvd, rne, rle, rlen, rsum⟩ := hrec
        refine ⟨rg, rdvd, rne, by omega, ?_, ?_⟩
        · rw [rlen, length_setL]
        · have hpop := freeSum_erase hidx hmem
          have hw : MIN_BLOCK_SIZE * 2 ^ (index + 1) = 2 * (MIN_BLOCK_SIZE * 2 ^ index) := by
            have := weight_double (j := index + 1) (by omega)
            simpa using this
          omega
      · exact ⟨hg, hdvd, hne, le_rfl, rfl, rfl⟩

theorem deallocate_spec {a : Allocator} {p sz al : Nat} {a' : Allocator}
    (h : deallocate a p sz al = some a')
    (hg : GoodLists a.free_list)
    (hp : 2 ^ ((trailing_zeros (block_size sz al) - BASE_ORDER) + BASE_ORDER) ∣ p)
    (hp0 : p ≠ 0) :
    GoodLists a'.free_list ∧
    freeSum a'.free_list =
      freeSum a.free_list +
        MIN_BLOCK_SIZE * 2 ^ (trailing_zeros (block_size sz al) - BASE_ORDER) := by
  simp only [deallocate] at h
  split at h
  · rename_i hc
    injection h with h2
    by_cases ht : trailing_zeros (block_size sz al) - BASE_ORDER ≤ a.free_list.length
    · have hlen : (a.free_list.length - (trailing_zeros (block_size sz al) - BASE_ORDER)) +
          (trailing_zeros (block_size sz al) - BASE_ORDER) ≤ a.free_list.length := by omega
      have hspec := coalesceGo_spec _ p _ a.free_list hlen hg hp hp0
      obtain ⟨rg, rdvd, rne, rle, rlen, rsum⟩ := hspec
      constructor
      · rw [← h2]
        refine goodLists_setL_of rg ?_
        intro y hy
        rcases List.mem_cons.mp hy with h1 | h1
        · subst h1; exact ⟨rdvd, rne⟩
        · exact rg _ y h1
      · rw [← h2]
        dsimp only
        have hpush := freeSum_push (l := (coalesceGo
            (a.free_list.length - (trailing_zeros (block_size sz al) - BASE_ORDER)) p
            (trailing_zeros (block_size sz al) - BASE_ORDER) a.free_list).1)
          (coalesceGo (a.free_list.length - (trailing_zeros (block_size sz al) - BASE_ORDER)) p
            (trailing_zeros (block_size sz al) - BASE_ORDER) a.free_list).2.1 hc
        omega
    · exfalso
      have hzero : a.free_list.length - (trailing_zeros (block_size sz al) - BASE_ORDER) = 0 := by
        omega
      rw [hzero] at hc
      simp only [coalesceGo] at hc
      omega
  · exact Option.noConfusion h

theorem lowBit_zero : lowBit 0 = 0 := by
  unfold lowBit
  simp

theorem addLoop_spec {orders : Nat} : ∀ (fuel : Nat) (fl : List (List Nat)) (start e : Nat)
    (fl' : List (List Nat)) (added : Nat),
    addLoop orders fuel fl start e = some (fl', added) →
    e ≤ 2 ^ 64 → fl.length = orders → GoodLists fl →
    GoodLists fl' ∧ freeSum fl' = freeSum fl + added := by
  intro fuel
  induction fuel with
  | zero =>
      intro fl start e fl' added h _ _ hg
      unfold addLoop at h
      split at h
      · exact Option.noConfusion h
      · injection h with h2
        injection h2 with h3 h4
        rw [← h3, ← h4]
        exact ⟨hg, by omega⟩
  | succ fuel ih =>
      intro fl start e fl' added h he hlen hg
      simp only [addLoop] at h
      split at h
      · rename_i hcond
        split at h
        · rename_i hguard
          obtain ⟨hszpos, htz4, hord⟩ := hguard
          split at h
          · exact Option.noConfusion h
          · rename_i fl2 added2 heq
            injection h with h2
            injection h2 with h3 h4
            -- facts about the chosen size
            have hstart0 : start ≠ 0 := by
              intro h0
              rw [h0, lowBit_zero] at hszpos
              simp at hszpos
            have hstartlt : start < 2 ^ 64 := by
              have : MIN_BLOCK_SIZE = 16 := rfl
              omega
            have hlb : lowBit start = 2 ^ trailing_zeros start :=
              lowBit_eq (by omega) hstartlt
            obtain ⟨c, hc⟩ := next_power_of_two_pow (e - start + 1)
            have hqpos : 0 < next_power_of_two (e - start + 1) >>> 1 := by
              omega
            have hcpos : 1 ≤ c := by
              by_contra hc0
              have : c = 0 := by omega
              rw [this] at hc
              rw [hc] at hqpos
              simp [Nat.shiftRight_eq_div_pow] at hqpos
            have hq : next_power_of_two (e - start + 1) >>> 1 = 2 ^ (c - 1) := by
              rw [hc, Nat.shiftRight_eq_div_pow]
              have := Nat.pow_div (x := 2) (m := c) (n := 1) hcpos (by norm_num)
              simpa using this
            have hsize : min (min (MAX_BLOCK_SIZE orders) (lowBit start))
                (next_power_of_two (e - start + 1) >>> 1) =
                2 ^ min (min (orders + BASE_ORDER - 1) (trailing_zeros start)) (c - 1) := by
              rw [hlb, hq, MAX_BLOCK_SIZE, two_pow_min, two_pow_min]
            have htzsize : trailing_zeros (min (min (MAX_BLOCK_SIZE orders) (lowBit start))
                (next_power_of_two (e - start + 1) >>> 1)) =
                min (min (orders + BASE_ORDER - 1) (trailing_zeros start)) (c - 1) := by
              rw [hsize, trailing_zeros_two_pow]
            -- the order pushed at, and alignment of the pushed start
            have hmle : min (min (orders + BASE_ORDER - 1) (trailing_zeros start)) (c - 1) ≤
                trailing_zeros start := by
              have h5 := Nat.min_le_left (min (orders + BASE_ORDER - 1) (trailing_zeros start)) (c - 1)
              have h6 := Nat.min_le_right (orders + BASE_ORDER - 1) (trailing_zeros start)
              omega
            have hdvd : 2 ^ (trailing_zeros (min (min (MAX_BLOCK_SIZE orders) (lowBit start))
                (next_power_of_two (e - start + 1) >>> 1)) - BASE_ORDER + BASE_ORDER) ∣ start := by
              rw [htzsize] at htz4 ⊢
              have hexp : min (min (orders + BASE_ORDER - 1) (trailing_zeros start)) (c - 1) -
                  BASE_ORDER + BASE_ORDER =
                  min (min (orders + BASE_ORDER - 1) (trailing_zeros start)) (c - 1) := by omega
              rw [hexp]
              exact dvd_trans (Nat.pow_dvd_pow 2 hmle)
                (two_pow_trailing_zeros_dvd start (by omega))
            have hordlt : trailing_zeros (min (min (MAX_BLOCK_SIZE orders) (lowBit start))
                (next_power_of_two (e - start + 1) >>> 1)) - BASE_ORDER < fl.length := by
              omega
            have hg1 : GoodLists (setL fl (trailing_zeros (min (min (MAX_BLOCK_SIZE orders)
                (lowBit start)) (next_power_of_two (e - start + 1) >>> 1)) - BASE_ORDER)
                (start :: getL fl (trailing_zeros (min (min (MAX_BLOCK_SIZE orders)
                (lowBit start)) (next_power_of_two (e - start + 1) >>> 1)) - BASE_ORDER))) := by
              refine goodLists_setL_of hg ?_
              intro y hy
              rcases List.mem_cons.mp hy with h1 | h1
              · subst h1; exact ⟨hdvd, hstart0⟩
              · exact hg _ y h1
            have hrec := ih _ _ _ _ _ heq he (by rw [length_setL]; exact hlen) hg1
            obtain ⟨rg, rsum⟩ := hrec
            have hpushsum := freeSum_push (l := fl) start hordlt
            have hwsize : MIN_BLOCK_SIZE * 2 ^ (trailing_zeros (min (min (MAX_BLOCK_SIZE orders)
                (lowBit start)) (next_power_of_two (e - start + 1) >>> 1)) - BASE_ORDER) =
                min (min (MAX_BLOCK_SIZE orders) (lowBit start))
                  (next_power_of_two (e - start + 1) >>> 1) := by
              rw [htzsize] at htz4 ⊢
              rw [pow_min_block htz4, ← hsize]
            rw [← h3, ← h4]
            refine ⟨rg, ?_⟩
            rw [rsum, hpushsum]
            omega
        · exact Option.noConfusion h
      · injection h with h2
        injection h2 with h3 h4
        rw [← h3, ← h4]
        exact ⟨hg, by omega⟩

theorem add_memory_spec {a : Allocator} {start len : Nat} {a' : Allocator} {r : Nat}
    (h : add_memory a start len = some (a', r)) (hg : GoodLists a.free_list) :
    GoodLists a'.free_list ∧ freeSum a'.free_list = freeSum a.free_list + r := by
  simp only [add_memory] at h
  split at h
  · exact Option.noConfusion h
  · rename_i fl2 added heq
    injection h with h2
    injection h2 with h3 h4
    have he : (start + len) &&& (2 ^ 64 - MIN_BLOCK_SIZE) ≤ 2 ^ 64 :=
      le_trans Nat.and_le_right (by norm_num)
    have := addLoop_spec _ _ _ _ _ _ heq he rfl hg
    rw [← h3, ← h4]
    exact this

theorem allocate_some_freeSum {a : Allocator} {sz al x : Nat} {a' : Allocator}
    (h : allocate a sz al = some (some x, a')) :
    freeSum a'.free_list +
        MIN_BLOCK_SIZE * 2 ^ (trailing_zeros (block_size sz al) - BASE_ORDER) =
      freeSum a.free_list := by
  simp only [allocate] at h
  split at h
  · rename_i hidx
    split at h
    · injection h with h2
      injection h2 with h3 h4
      exact Option.noConfusion h3
    · rename_i y rest hyr
      injection h with h2
      injection h2 with h3 h4
      rw [← h4]
      dsimp only
      have hpop := freeSum_pop hidx hyr
      have hsearch := allocSearch_freeSum a (trailing_zeros (block_size sz al) - BASE_ORDER)
      omega
  · exact Option.noConfusion h

theorem allocate_some_props {a : Allocator} {sz al x : Nat} {a' : Allocator}
    (h : allocate a sz al = some (some x, a')) (hg : GoodLists a.free_list) :
    2 ^ ((trailing_zeros (block_size sz al) - BASE_ORDER) + BASE_ORDER) ∣ x ∧ x ≠ 0 := by
  simp only [allocate] at h
  split at h
  · split at h
    · injection h with h2
      injection h2 with h3 h4
      exact Option.noConfusion h3
    · rename_i y rest hyr
      injection h with h2
      injection h2 with h3 h4
      by_cases hy0 : y = 0
      · rw [if_pos hy0] at h3
        exact Option.noConfusion h3
      · rw [if_neg hy0] at h3
        injection h3 with h5
        rw [← h5]
        have hmem : y ∈ getL (allocSearch a (trailing_zeros (block_size sz al) - BASE_ORDER)).free_list
            (trailing_zeros (block_size sz al) - BASE_ORDER) := by
          rw [hyr]; exact List.mem_cons_self _ _
        exact allocSearch_good hg _ y hmem
  · exact Option.noConfusion h

theorem allocate_none_freeSum {a : Allocator} {sz al : Nat} {a' : Allocator}
    (h : allocate a sz al = some (none, a')) (hg : GoodLists a.free_list) :
    freeSum a'.free_list = freeSum a.free_list := by
  simp only [allocate] at h
  split at h
  · split at h
    · injection h with h2
      injection h2 with h3 h4
      rw [← h4]
      exact allocSearch_freeSum a _
    · rename_i y rest hyr
      injection h with h2
      injection h2 with h3 h4
      by_cases hy0 : y = 0
      · exfalso
        have hmem : y ∈ getL (allocSearch a (trailing_zeros (block_size sz al) - BASE_ORDER)).free_list
            (trailing_zeros (block_size sz al) - BASE_ORDER) := by
          rw [hyr]; exact List.mem_cons_self _ _
        exact (allocSearch_good hg _ y hmem).2 hy0
      · rw [if_neg hy0] at h3
        exact Option.noConfusion h3
  · exact Option.noConfusion h

theorem block_size_weight {s b : Nat} (hal : ∃ k, b = 2 ^ k) :
    MIN_BLOCK_SIZE * 2 ^ (trailing_zeros (block_size s b) - BASE_ORDER) =
      block_size s b := by
  obtain ⟨m, hm, hm4⟩ := block_size_pow hal
  rw [hm, trailing_zeros_two_pow, pow_min_block hm4]

theorem freeSum_replicate (n : Nat) : freeSum (List.replicate n []) = 0 := by
  have hgen : ∀ (m o : Nat), freeSumFrom o (List.replicate m ([] : List Nat)) = 0 := by
    intro m
    induction m with
    | zero => intro o; rfl
    | succ m ih => intro o; simp [List.replicate, freeSumFrom, ih]
  exact hgen n 0

theorem allocSum_erase {live : List (Nat × Nat)} {e : Nat × Nat} (h : e ∈ live) :
    allocSum (live.erase e) + e.2 = allocSum live := by
  induction live with
  | nil => simp at h
  | cons p rest ih =>
      by_cases hpe : p = e
      · subst hpe
        rw [List.erase_cons_head]
        simp [allocSum]
        omega
      · have hne : ¬ (p == e) = true := by simp [hpe]
        rw [List.erase_cons_tail (by simpa using hpe)]
        have hmem : e ∈ rest := by
          rcases List.mem_cons.mp h with h1 | h1
          · exact absurd h1.symm hpe
          · exact h1
        cases p with
        | mk p1 p2 =>
            simp only [allocSum]
            have := ih hmem
            omega

theorem allocSum_cons (p : Nat × Nat) (rest : List (Nat × Nat)) :
    allocSum (p :: rest) = p.2 + allocSum rest := by
  cases p
  rfl


theorem reachable_inv {c : Config} (h : Reachable c) : StateInv c := by
  induction h with
  | init orders =>
      refine ⟨?_, ?_, ?_, rfl⟩
      · intro i x hx
        rw [show (Allocator.new orders).free_list = List.replicate orders [] from rfl,
          getL_replicate] at hx
        simp at hx
      · intro p hp; simp at hp
      · rw [show (Allocator.new orders).free_list = List.replicate orders [] from rfl,
          freeSum_replicate]
        rfl
  | add_mem start len hr hadd ih =>
      obtain ⟨hg, hl, hsum, htot⟩ := ih
      obtain ⟨hg', hsum'⟩ := add_memory_spec hadd hg
      have htot' := add_memory_total hadd
      exact ⟨hg', hl, by dsimp only at *; omega, by dsimp only at *; omega⟩
  | alloc_ok sz al k addr hr hal halloc ih =>
      obtain ⟨hg, hl, hsum, htot⟩ := ih
      have hg' := allocate_good halloc hg
      have hfs := allocate_some_freeSum halloc
      have hprops := allocate_some_props halloc hg
      have hw := block_size_weight (s := sz) ⟨k, hal⟩
      have htot' := allocate_total halloc
      refine ⟨hg', ?_, ?_, ?_⟩
      · intro p hp
        rcases List.mem_cons.mp hp with h1 | h1
        · subst h1
          refine ⟨?_, hprops.2⟩
          rw [← hw]
          have hexp : MIN_BLOCK_SIZE * 2 ^ (trailing_zeros (block_size sz al) - BASE_ORDER) =
              2 ^ ((trailing_zeros (block_size sz al) - BASE_ORDER) + BASE_ORDER) := by
            rw [show MIN_BLOCK_SIZE = 2 ^ BASE_ORDER from rfl, ← pow_add]
            congr 1
            omega
          rw [hexp]
          exact hprops.1
        · exact hl p h1
      · dsimp only at *
        rw [allocSum_cons]
        dsimp only
        omega
      · dsimp only at *; omega
  | alloc_fail sz al hr halloc ih =>
      obtain ⟨hg, hl, hsum, htot⟩ := ih
      have hg' := allocate_good halloc hg
      have hfs := allocate_none_freeSum halloc hg
      have htot' := allocate_total halloc
      exact ⟨hg', hl, by dsimp only at *; omega, by dsimp only at *; omega⟩
  | free_blk sz al k addr hr hal hmem hdeal ih =>
      obtain ⟨hg, hl, hsum, htot⟩ := ih
      obtain ⟨hdvd, hne⟩ := hl (addr, block_size sz al) hmem
      have hw := block_size_weight (s := sz) ⟨k, hal⟩
      have hexp : MIN_BLOCK_SIZE * 2 ^ (trailing_zeros (block_size sz al) - BASE_ORDER) =
          2 ^ ((trailing_zeros (block_size sz al) - BASE_ORDER) + BASE_ORDER) := by
        rw [show MIN_BLOCK_SIZE = 2 ^ BASE_ORDER from rfl, ← pow_add]
        congr 1
        omega
      have hp : 2 ^ ((trailing_zeros (block_size sz al) - BASE_ORDER) + BASE_ORDER) ∣ addr := by
        rw [← hexp, hw]
        exact hdvd
      obtain ⟨hg', hfs⟩ := deallocate_spec hdeal hg hp hne
      have htot' := deallocate_total hdeal
      have herase := allocSum_erase hmem
      refine ⟨hg', ?_, ?_, ?_⟩
      · intro p hp2
        exact hl p (List.mem_of_mem_erase hp2)
      · dsimp only at *
        omega
      · dsimp only at *; omega

/-! ### Exact shape of the split cascade -/

theorem split_block_getL {a : Allocator} {j A : Nat} {rest : List Nat}
    (hget : getL a.free_list j = A :: rest) (hj : 1 ≤ j) (hjlen : j < a.free_list.length) :
    getL (split_block a j).free_list (j - 1) =
      A :: (A + 2 ^ (j + BASE_ORDER - 1)) :: getL a.free_list (j - 1) ∧
    getL (split_block a j).free_list j = rest ∧
    (∀ i, i ≠ j - 1 → i ≠ j → getL (split_block a j).free_list i = getL a.free_list i) := by
  simp only [split_block]
  rw [hget]
  dsimp only
  have hlen1 : (setL a.free_list j rest).length = a.free_list.length := length_setL _ _ _
  have hlen2 : (setL (setL a.free_list j rest) (j - 1)
      ((A + 2 ^ (j + BASE_ORDER - 1)) :: getL (setL a.free_list j rest) (j - 1))).length =
      a.free_list.length := by rw [length_setL, length_setL]
  have hj1 : j - 1 < a.free_list.length := by omega
  have hne : j ≠ j - 1 := by omega
  have e1 : getL (setL a.free_list j rest) (j - 1) = getL a.free_list (j - 1) :=
    getL_setL_ne _ _ _ _ hne
  refine ⟨?_, ?_, ?_⟩
  · rw [getL_setL_eq _ _ _ (by omega), getL_setL_eq _ _ _ (by omega), e1]
  · rw [getL_setL_ne _ _ _ _ (by omega), getL_setL_ne _ _ _ _ (by omega),
      getL_setL_eq _ _ _ (by omega)]
  · intro i hi1 hi2
    rw [getL_setL_ne _ _ _ _ (by omega), getL_setL_ne _ _ _ _ (by omega),
      getL_setL_ne _ _ _ _ (by omega)]

theorem splitCascade_self (idx : Nat) (a : Allocator) : splitCascade idx idx a = a := by
  cases idx with
  | zero => rfl
  | succ j =>
      unfold splitCascade
      rw [if_neg (by omega)]

theorem splitCascade_desc : ∀ (d idx : Nat) (a : Allocator) (A : Nat) (rest : List Nat),
    1 ≤ d →
    idx + d < a.free_list.length →
    getL a.free_list (idx + d) = A :: rest →
    (∀ j, idx ≤ j → j < idx + d → getL a.free_list j = []) →
    (∀ j, j < idx → getL (splitCascade idx (idx + d) a).free_list j = getL a.free_list j) ∧
    getL (splitCascade idx (idx + d) a).free_list idx = [A, A + 2 ^ (idx + BASE_ORDER)] ∧
    (∀ j, idx < j → j < idx + d →
      getL (splitCascade idx (idx + d) a).free_list j = [A + 2 ^ (j + BASE_ORDER)]) ∧
    getL (splitCascade idx (idx + d) a).free_list (idx + d) = rest ∧
    (∀ j, idx + d < j → getL (splitCascade idx (idx + d) a).free_list j = getL a.free_list j) ∧
    (splitCascade idx (idx + d) a).free_list.length = a.free_list.length ∧
    (splitCascade idx (idx + d) a).total_size = a.total_size := by
  intro d
  induction d with
  | zero => intro idx a A rest h1; omega
  | succ d ih =>
      intro idx a A rest _ hlen hget hbelow
      rw [show idx + (d + 1) = idx + d + 1 from by omega] at hlen hget hbelow ⊢
      have hsplit := split_block_getL (j := idx + d + 1) hget (by omega) hlen
      obtain ⟨hs1, hs2, hs3⟩ := hsplit
      have hexp : idx + d + 1 - 1 = idx + d := by omega
      rw [hexp] at hs1 hs3
      have hexp2 : idx + d + 1 + BASE_ORDER - 1 = idx + d + BASE_ORDER := by
        simp only [BASE_ORDER_eq]; omega
      rw [hexp2] at hs1
      have hbelow_d : getL a.free_list (idx + d) = [] :=
        hbelow (idx + d) (by omega) (by omega)
      rw [hbelow_d] at hs1
      have hstep : splitCascade idx (idx + d + 1) a =
          splitCascade idx (idx + d) (split_block a (idx + d + 1)) := by
        simp only [splitCascade]
        rw [if_pos (by omega)]
      rw [hstep]
      rcases Nat.eq_zero_or_pos d with h0 | h0
      · -- no further splits: splitCascade idx (idx + 0) is the identity
        subst h0
        simp only [Nat.add_zero] at *
        rw [splitCascade_self]
        have hlen2 := split_block_length a (idx + 1)
        refine ⟨?_, hs1, ?_, hs2, ?_, hlen2, split_block_total a (idx + 1)⟩
        · intro j hj
          exact hs3 j (by omega) (by omega)
        · intro j hj1 hj2; omega
        · intro j hj
          exact hs3 j (by omega) (by omega)
      · -- at least one further split: apply the induction hypothesis
        have hlen2 : idx + d < (split_block a (idx + d + 1)).free_list.length := by
          rw [split_block_length]; omega
        have hget2 : getL (split_block a (idx + d + 1)).free_list (idx + d) =
            A :: [A + 2 ^ (idx + d + BASE_ORDER)] := hs1
        have hbelow2 : ∀ j, idx ≤ j → j < idx + d →
            getL (split_block a (idx + d + 1)).free_list j = [] := by
          intro j hj1 hj2
          rw [hs3 j (by omega) (by omega)]
          exact hbelow j hj1 (by omega)
        have hrec := ih idx (split_block a (idx + d + 1)) A [A + 2 ^ (idx + d + BASE_ORDER)]
          h0 hlen2 hget2 hbelow2
        obtain ⟨r1, r2, r3, r4, r5, r6, r7⟩ := hrec
        refine ⟨?_, r2, ?_, ?_, ?_, ?_, ?_⟩
        · intro j hj
          rw [r1 j hj]
          exact hs3 j (by omega) (by omega)
        · intro j hj1 hj2
          rcases Nat.lt_or_ge j (idx + d) with hlt | hge
          · exact r3 j hj1 hlt
          · have hj3 : j = idx + d := by omega
            rw [hj3, r4]
        · rw [r5 (idx + d + 1) (by omega), hs2]
        · intro j hj
          rw [r5 j (by omega)]
          exact hs3 j (by omega) (by omega)
        · rw [r6, split_block_length]
        · rw [r7, split_block_total]

theorem find?_range'_first {p : Nat → Bool} : ∀ (n t k : Nat),
    (List.range' t n).find? p = some k →
    t ≤ k ∧ k < t + n ∧ p k = true ∧ ∀ j, t ≤ j → j < k → p j = false := by
  intro n
  induction n with
  | zero => intro t k h; exact Option.noConfusion h
  | succ n ih =>
      intro t k h
      rw [List.range'_succ] at h
      by_cases hp : p t
      · rw [List.find?_cons_of_pos _ hp] at h
        injection h with h2
        subst h2
        exact ⟨le_rfl, by omega, hp, fun j h1 h2 => by omega⟩
      · rw [List.find?_cons_of_neg _ hp] at h
        obtain ⟨h1, h2, h3, h4⟩ := ih (t + 1) k h
        refine ⟨by omega, by omega, h3, ?_⟩
        intro j hj1 hj2
        rcases Nat.eq_or_lt_of_le hj1 with heq | hlt
        · rw [← heq]
          exact Bool.of_not_eq_true hp
        · exact h4 j (by omega) hj2

theorem Allocator.ext_eq {x y : Allocator} (h1 : x.free_list = y.free_list)
    (h2 : x.total_size = y.total_size) : x = y := by
  cases x
  cases y
  simp_all

theorem coalesceGo_climb : ∀ (d t : Nat) (fl : List (List Nat)) (A : Nat),
    (∀ j, t ≤ j → j < t + d → getL fl j = [A + 2 ^ (j + BASE_ORDER)]) →
    2 ^ (t + d + BASE_ORDER) ∣ A →
    (A ^^^ 2 ^ (t + d + BASE_ORDER)) ∉ getL fl (t + d) →
    t + d < fl.length →
    ∃ fl', coalesceGo (fl.length - t) A t fl = (fl', A, t + d) ∧
      fl'.length = fl.length ∧
      (∀ j, t ≤ j → j < t + d → getL fl' j = []) ∧
      (∀ j, j < t → getL fl' j = getL fl j) ∧
      (∀ j, t + d ≤ j → getL fl' j = getL fl j) := by
  intro d
  induction d with
  | zero =>
      intro t fl A _ _ hstop hlen
      simp only [Nat.add_zero] at *
      obtain ⟨s, hs⟩ : ∃ s, fl.length - t = s + 1 := ⟨fl.length - t - 1, by omega⟩
      rw [hs]
      simp only [coalesceGo]
      rw [if_neg hstop]
      exact ⟨fl, rfl, rfl, fun j h1 h2 => by omega, fun j _ => rfl, fun j _ => rfl⟩
  | succ d ih =>
      intro t fl A hsib hdvd hstop hlen
      obtain ⟨s, hs⟩ : ∃ s, fl.length - t = s + 1 := ⟨fl.length - t - 1, by omega⟩
      rw [hs]
      simp only [coalesceGo]
      have hbud : A ^^^ 2 ^ (t + BASE_ORDER) = A + 2 ^ (t + BASE_ORDER) := by
        refine xor_two_pow_of_dvd ?_
        refine dvd_trans (Nat.pow_dvd_pow 2 (by omega)) hdvd
      have hgett : getL fl t = [A + 2 ^ (t + BASE_ORDER)] :=
        hsib t le_rfl (by omega)
      rw [if_pos (by rw [hbud, hgett]; exact List.mem_cons_self _ _)]
      have hmin : min A (A ^^^ 2 ^ (t + BASE_ORDER)) = A := by
        rw [hbud]
        exact Nat.min_eq_left (Nat.le_add_right _ _)
      have herase : (getL fl t).erase (A ^^^ 2 ^ (t + BASE_ORDER)) = [] := by
        rw [hgett, hbud]
        simp
      rw [hmin, herase]
      have hlen1 : (setL fl t []).length = fl.length := length_setL _ _ _
      have hsib1 : ∀ j, t + 1 ≤ j → j < (t + 1) + d →
          getL (setL fl t []) j = [A + 2 ^ (j + BASE_ORDER)] := by
        intro j h1 h2
        rw [getL_setL_ne _ _ _ _ (by omega)]
        exact hsib j (by omega) (by omega)
      have hdvd1 : 2 ^ ((t + 1) + d + BASE_ORDER) ∣ A := by
        rwa [show (t + 1) + d + BASE_ORDER = t + (d + 1) + BASE_ORDER from by omega]
      have hstop1 : (A ^^^ 2 ^ ((t + 1) + d + BASE_ORDER)) ∉ getL (setL fl t []) ((t + 1) + d) := by
        rw [getL_setL_ne _ _ _ _ (by omega), show (t + 1) + d = t + (d + 1) from by omega]
        exact hstop
      have hlen2 : (t + 1) + d < (setL fl t []).length := by
        rw [hlen1]; omega
      obtain ⟨fl', hrec, hrlen, hr1, hr2, hr3⟩ := ih (t + 1) (setL fl t []) A hsib1 hdvd1 hstop1 hlen2
      have hsteps : (setL fl t []).length - (t + 1) = s := by
        rw [hlen1]; omega
      rw [hsteps] at hrec
      refine ⟨fl', by rw [hrec, show (t + 1) + d = t + (d + 1) from by omega], ?_, ?_, ?_, ?_⟩
      · rw [hrlen, hlen1]
      · intro j h1 h2
        rcases Nat.eq_or_lt_of_le h1 with heq | hlt
        · rw [hr2 j (by omega), ← heq, getL_setL_eq _ _ _ (by omega)]
        · rw [hr1 j (by omega) (by omega)]
      · intro j hj
        rw [hr2 j (by omega), getL_setL_ne _ _ _ _ (by omega)]
      · intro j hj
        rw [hr3 j (by omega), getL_setL_ne _ _ _ _ (by omega)]

/-! ### Input-output characterization of allocate -/

theorem allocate_spec_none {a : Allocator} (sz al : Nat)
    (ht : trailing_zeros (block_size sz al) - BASE_ORDER < a.free_list.length)
    (hempty : ∀ j, trailing_zeros (block_size sz al) - BASE_ORDER ≤ j →
      j < a.free_list.length → getL a.free_list j = []) :
    allocate a sz al = some (none, a) := by
  have hfind : (List.range' (trailing_zeros (block_size sz al) - BASE_ORDER)
      (a.free_list.length - (trailing_zeros (block_size sz al) - BASE_ORDER))).find?
      (fun i => !(getL a.free_list i).isEmpty) = none := by
    refine find?_range'_eq_none _ _ ?_
    intro j h1 h2
    rw [hempty j h1 (by omega)]
    rfl
  simp only [allocate, allocSearch]
  rw [hfind]
  rw [if_pos ht, hempty _ le_rfl ht]

theorem allocate_spec_pop {a : Allocator} (sz al k A : Nat) (rest : List Nat)
    (htk : trailing_zeros (block_size sz al) - BASE_ORDER ≤ k)
    (hk : k < a.free_list.length)
    (hbelow : ∀ j, trailing_zeros (block_size sz al) - BASE_ORDER ≤ j → j < k →
      getL a.free_list j = [])
    (hget : getL a.free_list k = A :: rest)
    (hA : A ≠ 0) :
    ∃ a', allocate a sz al = some (some A, a') ∧
      a'.total_size = a.total_size ∧
      a'.free_list.length = a.free_list.length ∧
      (∀ j, j < trailing_zeros (block_size sz al) - BASE_ORDER →
        getL a'.free_list j = getL a.free_list j) ∧
      (∀ j, trailing_zeros (block_size sz al) - BASE_ORDER ≤ j → j < k →
        getL a'.free_list j = [A + 2 ^ (j + BASE_ORDER)]) ∧
      getL a'.free_list k = rest ∧
      (∀ j, k < j → getL a'.free_list j = getL a.free_list j) := by
  have hfind : (List.range' (trailing_zeros (block_size sz al) - BASE_ORDER)
      (a.free_list.length - (trailing_zeros (block_size sz al) - BASE_ORDER))).find?
      (fun i => !(getL a.free_list i).isEmpty) = some k := by
    refine find?_range'_eq_some _ _ _ htk (by omega) ?_ ?_
    · intro j h1 h2
      rw [hbelow j h1 h2]
      rfl
    · rw [hget]
      rfl
  simp only [allocate, allocSearch]
  rw [hfind]
  dsimp only
  rcases Nat.eq_or_lt_of_le htk with heq | hlt
  · -- the target order itself is non-empty: no cascade
    rw [← heq] at hget hk ⊢
    rw [splitCascade_self, if_pos hk, hget]
    dsimp only
    rw [if_neg hA]
    refine ⟨_, rfl, rfl, length_setL _ _ _, ?_, ?_, ?_, ?_⟩
    · intro j hj
      exact getL_setL_ne _ _ _ _ (by omega)
    · intro j h1 h2; omega
    · exact getL_setL_eq _ _ _ hk
    · intro j hj
      exact getL_setL_ne _ _ _ _ (by omega)
  · -- cascade from order k down to the target order
    have hd := splitCascade_desc (k - (trailing_zeros (block_size sz al) - BASE_ORDER))
      (trailing_zeros (block_size sz al) - BASE_ORDER) a A rest (by omega)
      (by rw [show trailing_zeros (block_size sz al) - BASE_ORDER +
        (k - (trailing_zeros (block_size sz al) - BASE_ORDER)) = k from by omega]; exact hk)
      (by rw [show trailing_zeros (block_size sz al) - BASE_ORDER +
        (k - (trailing_zeros (block_size sz al) - BASE_ORDER)) = k from by omega]; exact hget)
      (by rw [show trailing_zeros (block_size sz al) - BASE_ORDER +
        (k - (trailing_zeros (block_size sz al) - BASE_ORDER)) = k from by omega]; exact hbelow)
    rw [show trailing_zeros (block_size sz al) - BASE_ORDER +
      (k - (trailing_zeros (block_size sz al) - BASE_ORDER)) = k from by omega] at hd
    obtain ⟨r1, r2, r3, r4, r5, r6, r7⟩ := hd
    rw [if_pos (by rw [r6]; omega), r2]
    dsimp only
    rw [if_neg hA]
    refine ⟨_, rfl, r7, by rw [length_setL, r6], ?_, ?_, ?_, ?_⟩
    · intro j hj
      rw [getL_setL_ne _ _ _ _ (by omega)]
      exact r1 j hj
    · intro j h1 h2
      rcases Nat.eq_or_lt_of_le h1 with heq2 | hlt2
      · rw [← heq2, getL_setL_eq _ _ _ (by rw [r6]; omega)]
      · rw [getL_setL_ne _ _ _ _ (by omega)]
        exact r3 j hlt2 h2
    · rw [getL_setL_ne _ _ _ _ (by omega)]
      exact r4
    · intro j hj
      rw [getL_setL_ne _ _ _ _ (by omega)]
      exact r5 j hj

theorem allocate_some_shape {a : Allocator} {sz al A : Nat} {a' : Allocator}
    (halloc : allocate a sz al = some (some A, a')) :
    ∃ k rest, trailing_zeros (block_size sz al) - BASE_ORDER ≤ k ∧ k < a.free_list.length ∧
      (∀ j, trailing_zeros (block_size sz al) - BASE_ORDER ≤ j → j < k →
        getL a.free_list j = []) ∧
      getL a.free_list k = A :: rest ∧ A ≠ 0 ∧
      a'.free_list.length = a.free_list.length ∧ a'.total_size = a.total_size ∧
      (∀ j, j < trailing_zeros (block_size sz al) - BASE_ORDER →
        getL a'.free_list j = getL a.free_list j) ∧
      (∀ j, trailing_zeros (block_size sz al) - BASE_ORDER ≤ j → j < k →
        getL a'.free_list j = [A + 2 ^ (j + BASE_ORDER)]) ∧
      getL a'.free_list k = rest ∧
      (∀ j, k < j → getL a'.free_list j = getL a.free_list j) := by
  rcases hfind : (List.range' (trailing_zeros (block_size sz al) - BASE_ORDER)
      (a.free_list.length - (trailing_zeros (block_size sz al) - BASE_ORDER))).find?
      (fun i => !(getL a.free_list i).isEmpty) with _ | k
  · -- no non-empty order: the final pop must have failed, contradiction
    exfalso
    simp only [allocate, allocSearch] at halloc
    rw [hfind] at halloc
    dsimp only at halloc
    split at halloc
    · rename_i hlt
      split at halloc
      · injection halloc with h2
        injection h2 with h3 h4
        exact Option.noConfusion h3
      · rename_i y rest hyr
        have hmem : trailing_zeros (block_size sz al) - BASE_ORDER ∈
            List.range' (trailing_zeros (block_size sz al) - BASE_ORDER)
              (a.free_list.length - (trailing_zeros (block_size sz al) - BASE_ORDER)) := by
          rw [List.mem_range']
          exact ⟨0, by omega, by omega⟩
        have := List.find?_eq_none.mp hfind _ hmem
        rw [hyr] at this
        simp at this
    · exact Option.noConfusion halloc
  · obtain ⟨htk, hklt, hpk, hbelowp⟩ := find?_range'_first _ _ _ hfind
    have hbelow : ∀ j, trailing_zeros (block_size sz al) - BASE_ORDER ≤ j → j < k →
        getL a.free_list j = [] := by
      intro j h1 h2
      have := hbelowp j h1 h2
      simpa using this
    have hkne : getL a.free_list k ≠ [] := by
      intro hnil
      rw [hnil] at hpk
      simp at hpk
    obtain ⟨A0, rest0, hget⟩ : ∃ A0 rest0, getL a.free_list k = A0 :: rest0 := by
      cases hc : getL a.free_list k with
      | nil => exact absurd hc hkne
      | cons x xs => exact ⟨x, xs, rfl⟩
    -- now dissect the pop against this shape
    simp only [allocate, allocSearch] at halloc
    rw [hfind] at halloc
    dsimp only at halloc
    rcases Nat.eq_or_lt_of_le htk with heq | hlt
    · have hklen : trailing_zeros (block_size sz al) - BASE_ORDER < a.free_list.length := by
        omega
      rw [← heq] at hget halloc
      rw [splitCascade_self, if_pos hklen, hget] at halloc
      dsimp only at halloc
      by_cases hy0 : A0 = 0
      · rw [if_pos hy0] at halloc
        injection halloc with h2
        injection h2 with h3 h4
        exact Option.noConfusion h3
      · rw [if_neg hy0] at halloc
        injection halloc with h2
        injection h2 with h3 h4
        injection h3 with h5
        subst h5
        refine ⟨k, rest0, htk, by omega, hbelow, by rw [← heq]; exact hget, hy0, ?_, ?_, ?_, ?_, ?_, ?_⟩
        · rw [← h4]
          exact length_setL _ _ _
        · rw [← h4]
        · intro j hj
          rw [← h4]
          exact getL_setL_ne _ _ _ _ (by omega)
        · intro j h1 h2; omega
        · rw [← h4, ← heq]
          exact getL_setL_eq _ _ _ hklen
        · intro j hj
          rw [← h4]
          exact getL_setL_ne _ _ _ _ (by omega)
    · have hd := splitCascade_desc (k - (trailing_zeros (block_size sz al) - BASE_ORDER))
        (trailing_zeros (block_size sz al) - BASE_ORDER) a A0 rest0 (by omega)
        (by rw [show trailing_zeros (block_size sz al) - BASE_ORDER +
          (k - (trailing_zeros (block_size sz al) - BASE_ORDER)) = k from by omega]; omega)
        (by rw [show trailing_zeros (block_size sz al) - BASE_ORDER +
          (k - (trailing_zeros (block_size sz al) - BASE_ORDER)) = k from by omega]; exact hget)
        (by rw [show trailing_zeros (block_size sz al) - BASE_ORDER +
          (k - (trailing_zeros (block_size sz al) - BASE_ORDER)) = k from by omega]; exact hbelow)
      rw [show trailing_zeros (block_size sz al) - BASE_ORDER +
        (k - (trailing_zeros (block_size sz al) - BASE_ORDER)) = k from by omega] at hd
      obtain ⟨r1, r2, r3, r4, r5, r6, r7⟩ := hd
      rw [if_pos (by rw [r6]; omega), r2] at halloc
      dsimp only at halloc
      by_cases hy0 : A0 = 0
      · rw [if_pos hy0] at halloc
        injection halloc with h2
        injection h2 with h3 h4
        exact Option.noConfusion h3
      · rw [if_neg hy0] at halloc
        injection halloc with h2
        injection h2 with h3 h4
        injection h3 with h5
        subst h5
        refine ⟨k, rest0, htk, by omega, hbelow, hget, hy0, ?_, ?_, ?_, ?_, ?_, ?_⟩
        · rw [← h4, length_setL, r6]
        · rw [← h4, r7]
        · intro j hj
          rw [← h4, getL_setL_ne _ _ _ _ (by omega)]
          exact r1 j hj
        · intro j h1 h2
          rcases Nat.eq_or_lt_of_le h1 with heq2 | hlt2
          · rw [← h4, ← heq2, getL_setL_eq _ _ _ (by rw [r6]; omega)]
          · rw [← h4, getL_setL_ne _ _ _ _ (by omega)]
            exact r3 j hlt2 h2
        · rw [← h4, getL_setL_ne _ _ _ _ (by omega)]
          exact r4
        · intro j hj
          rw [← h4, getL_setL_ne _ _ _ _ (by omega)]
          exact r5 j hj

theorem roundtrip_restore {a : Allocator} {sz al A : Nat} {a' : Allocator}
    (halloc : allocate a sz al = some (some A, a'))
    (hg : GoodLists a.free_list)
    (hpair : ∀ i x y, x ∈ getL a.free_list i → y ∈ getL a.free_list i →
      x ^^^ 2 ^ (i + BASE_ORDER) ≠ y) :
    deallocate a' A sz al = some a := by
  obtain ⟨k, rest, htk, hklt, hbelow, hgetk, hA0, hlen', htot', hlow, hmid, hatk, hhigh⟩ :=
    allocate_some_shape halloc
  have hAmem : A ∈ getL a.free_list k := by
    rw [hgetk]; exact List.mem_cons_self _ _
  have hAdvd : 2 ^ (k + BASE_ORDER) ∣ A := (hg k A hAmem).1
  have hsib : ∀ j, (trailing_zeros (block_size sz al) - BASE_ORDER) ≤ j →
      j < (trailing_zeros (block_size sz al) - BASE_ORDER) +
        (k - (trailing_zeros (block_size sz al) - BASE_ORDER)) →
      getL a'.free_list j = [A + 2 ^ (j + BASE_ORDER)] := by
    intro j h1 h2
    exact hmid j h1 (by omega)
  have hdvd2 : 2 ^ ((trailing_zeros (block_size sz al) - BASE_ORDER) +
      (k - (trailing_zeros (block_size sz al) - BASE_ORDER)) + BASE_ORDER) ∣ A := by
    rwa [show (trailing_zeros (block_size sz al) - BASE_ORDER) +
      (k - (trailing_zeros (block_size sz al) - BASE_ORDER)) = k from by omega]
  have hstop : (A ^^^ 2 ^ ((trailing_zeros (block_size sz al) - BASE_ORDER) +
      (k - (trailing_zeros (block_size sz al) - BASE_ORDER)) + BASE_ORDER)) ∉
      getL a'.free_list ((trailing_zeros (block_size sz al) - BASE_ORDER) +
        (k - (trailing_zeros (block_size sz al) - BASE_ORDER))) := by
    rw [show (trailing_zeros (block_size sz al) - BASE_ORDER) +
      (k - (trailing_zeros (block_size sz al) - BASE_ORDER)) = k from by omega, hatk]
    intro hmem
    have hmem2 : A ^^^ 2 ^ (k + BASE_ORDER) ∈ getL a.free_list k := by
      rw [hgetk]
      exact List.mem_cons_of_mem _ hmem
    exact hpair k A (A ^^^ 2 ^ (k + BASE_ORDER)) hAmem hmem2 rfl
  have hklen2 : (trailing_zeros (block_size sz al) - BASE_ORDER) +
      (k - (trailing_zeros (block_size sz al) - BASE_ORDER)) < a'.free_list.length := by
    rw [hlen']; omega
  obtain ⟨fl', hco, hflen, hemp, hloweq, hhigheq⟩ :=
    coalesceGo_climb (k - (trailing_zeros (block_size sz al) - BASE_ORDER))
      (trailing_zeros (block_size sz al) - BASE_ORDER) a'.free_list A hsib hdvd2 hstop hklen2
  have hkk : (trailing_zeros (block_size sz al) - BASE_ORDER) +
      (k - (trailing_zeros (block_size sz al) - BASE_ORDER)) = k := by omega
  rw [hkk] at hco hemp hhigheq
  simp only [deallocate]
  rw [hco]
  dsimp only
  rw [if_pos (by rw [hflen, hlen']; omega)]
  refine congrArg some (Allocator.ext_eq ?_ ?_)
  · refine listExt _ _ (by rw [length_setL, hflen, hlen']) ?_
    intro j
    rcases Nat.lt_trichotomy j k with hjk | hjk | hjk
    · rcases Nat.lt_or_ge j (trailing_zeros (block_size sz al) - BASE_ORDER) with hjt | hjt
      · rw [getL_setL_ne _ _ _ _ (by omega), hloweq j hjt, hlow j hjt]
      · rw [getL_setL_ne _ _ _ _ (by omega), hemp j (by omega) (by omega),
          hbelow j (by omega) (by omega)]
    · subst hjk
      rw [getL_setL_eq _ _ _ (by rw [hflen, hlen']; omega), hhigheq j le_rfl, hatk, hgetk]
    · rw [getL_setL_ne _ _ _ _ (by omega), hhigheq j (by omega), hhigh j hjk]
  · exact htot'

/-! ### Tiling characterization of the registration loop -/


theorem le_trailing_zeros_of_dvd : ∀ (k n : Nat), 0 < n → 2 ^ k ∣ n →
    k ≤ trailing_zeros n := by
  intro k
  induction k with
  | zero => intro n _ _; omega
  | succ k ih =>
      intro n hn hdvd
      have heven : n % 2 = 0 := by
        have h2 : (2 : Nat) ∣ n := dvd_trans (dvd_pow_self 2 (by omega)) hdvd
        omega
      have hrw : n = 2 * (n / 2) := by omega
      have hpos : 0 < n / 2 := by omega
      rw [hrw, trailing_zeros_two_mul hpos]
      have hdvd2 : 2 ^ k ∣ n / 2 := by
        obtain ⟨q, hq⟩ := hdvd
        refine ⟨q, ?_⟩
        rw [pow_succ] at hq
        have hq2 : n = 2 * (2 ^ k * q) := by rw [hq]; ring
        omega
      have := ih (n / 2) hpos hdvd2
      omega

theorem addLoop_tiling {orders : Nat} (horders : 0 < orders) :
    ∀ (fuel start : Nat) (fl : List (List Nat)) (e : Nat),
    MIN_BLOCK_SIZE ∣ start → 0 < start → MIN_BLOCK_SIZE ∣ e → e ≤ 2 ^ 64 →
    fl.length = orders → e - start ≤ fuel →
    ∃ bs, addLoop orders fuel fl start e = some (pushBlocks fl bs, sizesSum bs) ∧
      TilesFrom start e bs ∧ sizesSum bs = e - start ∧
      ∀ p, p ∈ bs → ∃ dp lp, IsMaxPow2Dvd p.1 dp ∧ IsMaxPow2Le (e - p.1) lp ∧
        p.2 = min (MAX_BLOCK_SIZE orders) (min dp lp) := by
  intro fuel
  induction fuel with
  | zero =>
      intro start fl e h16 hpos h16e hebound hlen hfuel
      have hcond : ¬ (start + MIN_BLOCK_SIZE ≤ e) := by
        have : MIN_BLOCK_SIZE = 16 := rfl
        omega
      refine ⟨[], ?_, hcond, ?_, by intro p hp; simp at hp⟩
      · unfold addLoop
        rw [if_neg hcond]
        rfl
      · have : MIN_BLOCK_SIZE = 16 := rfl
        simp only [sizesSum]
        omega
  | succ fuel ih =>
      intro start fl e h16 hpos h16e hebound hlen hfuel
      by_cases hcond : start + MIN_BLOCK_SIZE ≤ e
      · have hM : MIN_BLOCK_SIZE = 16 := rfl
        have hstartlt : start < 2 ^ 64 := by omega
        have hlb : lowBit start = 2 ^ trailing_zeros start := lowBit_eq hpos hstartlt
        have htzs : BASE_ORDER ≤ trailing_zeros start :=
          le_trailing_zeros_of_dvd BASE_ORDER start hpos
            (by rw [show (2 : Nat) ^ BASE_ORDER = MIN_BLOCK_SIZE from rfl]; exact h16)
        obtain ⟨c, hc⟩ := next_power_of_two_pow (e - start + 1)
        have hnpotge : e - start + 1 ≤ 2 ^ c := by
          rw [← hc]; exact le_next_power_of_two _
        have hc5 : 5 ≤ c := by
          by_contra hc4
          have hle : (2 : Nat) ^ c ≤ 2 ^ 4 := Nat.pow_le_pow_right (by norm_num) (by omega)
          have h24 : (2 : Nat) ^ 4 = 16 := by norm_num
          omega
        have hq : next_power_of_two (e - start + 1) >>> 1 = 2 ^ (c - 1) := by
          rw [hc, Nat.shiftRight_eq_div_pow]
          have := Nat.pow_div (x := 2) (m := c) (n := 1) (by omega) (by norm_num)
          simpa using this
        have hqle : 2 ^ (c - 1) ≤ e - start := by
          by_contra hcontra
          have hle2 : e - start + 1 ≤ 2 ^ (c - 1) := by omega
          have := next_power_of_two_le hle2
          rw [hc] at this
          have hgrow : (2 : Nat) ^ c = 2 * 2 ^ (c - 1) := by
            conv_lhs => rw [show c = (c - 1) + 1 from by omega]
            rw [pow_succ]
            ring
          have hp1 : 0 < (2 : Nat) ^ (c - 1) := Nat.pos_pow_of_pos _ (by norm_num)
          omega
        have hsize : min (min (MAX_BLOCK_SIZE orders) (lowBit start))
            (next_power_of_two (e - start + 1) >>> 1) =
            2 ^ min (min (orders + BASE_ORDER - 1) (trailing_zeros start)) (c - 1) := by
          rw [hlb, hq, MAX_BLOCK_SIZE, two_pow_min, two_pow_min]
        have hm4 : BASE_ORDER ≤ min (min (orders + BASE_ORDER - 1) (trailing_zeros start)) (c - 1) := by
          simp only [BASE_ORDER_eq] at *
          omega
        have htzsize : trailing_zeros (min (min (MAX_BLOCK_SIZE orders) (lowBit start))
            (next_power_of_two (e - start + 1) >>> 1)) =
            min (min (orders + BASE_ORDER - 1) (trailing_zeros start)) (c - 1) := by
          rw [hsize, trailing_zeros_two_pow]
        have hszpos : 0 < min (min (MAX_BLOCK_SIZE orders) (lowBit start))
            (next_power_of_two (e - start + 1) >>> 1) := by
          rw [hsize]
          exact Nat.pos_pow_of_pos _ (by norm_num)
        have hsz16 : 2 ^ BASE_ORDER ≤ min (min (MAX_BLOCK_SIZE orders) (lowBit start))
            (next_power_of_two (e - start + 1) >>> 1) := by
          rw [hsize]
          exact Nat.pow_le_pow_right (by norm_num) hm4
        have hszle : min (min (MAX_BLOCK_SIZE orders) (lowBit start))
            (next_power_of_two (e - start + 1) >>> 1) ≤ e - start := by
          have h1 := Nat.min_le_right (min (MAX_BLOCK_SIZE orders) (lowBit start))
            (next_power_of_two (e - start + 1) >>> 1)
          rw [hq] at h1
          omega
        have hguard : 0 < min (min (MAX_BLOCK_SIZE orders) (lowBit start))
            (next_power_of_two (e - start + 1) >>> 1) ∧
            BASE_ORDER ≤ trailing_zeros (min (min (MAX_BLOCK_SIZE orders) (lowBit start))
              (next_power_of_two (e - start + 1) >>> 1)) ∧
            trailing_zeros (min (min (MAX_BLOCK_SIZE orders) (lowBit start))
              (next_power_of_two (e - start + 1) >>> 1)) - BASE_ORDER < orders := by
          refine ⟨hszpos, by rw [htzsize]; exact hm4, ?_⟩
          rw [htzsize]
          simp only [BASE_ORDER_eq] at *
          omega
        have hszdvd : MIN_BLOCK_SIZE ∣ min (min (MAX_BLOCK_SIZE orders) (lowBit start))
            (next_power_of_two (e - start + 1) >>> 1) := by
          rw [hsize, show MIN_BLOCK_SIZE = 2 ^ BASE_ORDER from rfl]
          exact Nat.pow_dvd_pow 2 hm4
        have hrec := ih (start + min (min (MAX_BLOCK_SIZE orders) (lowBit start))
            (next_power_of_two (e - start + 1) >>> 1))
          (setL fl (trailing_zeros (min (min (MAX_BLOCK_SIZE orders) (lowBit start))
            (next_power_of_two (e - start + 1) >>> 1)) - BASE_ORDER)
            (start :: getL fl (trailing_zeros (min (min (MAX_BLOCK_SIZE orders) (lowBit start))
              (next_power_of_two (e - start + 1) >>> 1)) - BASE_ORDER)))
          e (Nat.dvd_add h16 hszdvd) (by omega) h16e hebound
          (by rw [length_setL]; exact hlen)
          (by have h24 : (2 : Nat) ^ BASE_ORDER = 16 := rfl; omega)
        obtain ⟨bs', hrun, htiles, hsum, hchar⟩ := hrec
        refine ⟨(start, min (min (MAX_BLOCK_SIZE orders) (lowBit start))
          (next_power_of_two (e - start + 1) >>> 1)) :: bs', ?_, ?_, ?_, ?_⟩
        · simp only [addLoop]
          rw [if_pos hcond, if_pos hguard, hrun]
          simp only [pushBlocks, sizesSum]
        · exact ⟨rfl, hszpos, by omega, htiles⟩
        · simp only [sizesSum]
          omega
        · intro p hp
          rcases List.mem_cons.mp hp with h1 | h1
          · subst h1
            refine ⟨2 ^ trailing_zeros start, 2 ^ (c - 1), ?_, ?_, ?_⟩
            · refine ⟨⟨trailing_zeros start, rfl⟩, two_pow_trailing_zeros_dvd start hpos, ?_⟩
              intro k hk
              exact Nat.pow_le_pow_right (by norm_num) (le_trailing_zeros_of_dvd k start hpos hk)
            · refine ⟨⟨c - 1, rfl⟩, hqle, ?_⟩
              intro k hk
              rcases le_or_lt k (c - 1) with hkc | hkc
              · exact Nat.pow_le_pow_right (by norm_num) hkc
              · have hck : (2 : Nat) ^ c ≤ 2 ^ k := Nat.pow_le_pow_right (by norm_num) (by omega)
                omega
            · dsimp only
              rw [hlb, hq, Nat.min_assoc]
          · exact hchar p h1
      · refine ⟨[], ?_, hcond, ?_, by intro p hp; simp at hp⟩
        · unfold addLoop
          rw [if_neg hcond]
          rfl
        · have hMeq : MIN_BLOCK_SIZE = 16 := rfl
          rw [hMeq] at h16 h16e hcond
          simp only [sizesSum]
          omega

theorem addLoop_done (orders fuel : Nat) (fl : List (List Nat)) (start e : Nat)
    (h : ¬ (start + MIN_BLOCK_SIZE ≤ e)) : addLoop orders fuel fl start e = some (fl, 0) := by
  cases fuel <;> (unfold addLoop; rw [if_neg h])

theorem goodLists_of_dec {fl : List (List Nat)}
    (h : ∀ i, i < fl.length → ∀ x, x ∈ getL fl i → 2 ^ (i + BASE_ORDER) ∣ x ∧ x ≠ 0) :
    GoodLists fl := by
  intro i x hx
  by_cases hi : i < fl.length
  · exact h i hi x hx
  · rw [getL_of_ge fl i (by omega)] at hx
    simp at hx


/-! ### The claimed properties -/

/-- Claim C1.  The claim states that the coalescing loop of `deallocate`
stops at the top order, so the final push always lands at an index
strictly below `ORDERS`.  The code violates this: on a 5-order allocator
holding the two top-order blocks of a 512-aligned 512-byte region, the
loop also searches order `ORDERS - 1`, finds the spurious top-level buddy,
merges, and pushes at `free_list[5]` — an out-of-bounds panic (modelled by
`deallocate` returning `none`). -/
theorem claim_C1_top_order_panic :
    add_memory (Allocator.new 5) 512 512 =
      some ({ free_list := [[], [], [], [], [768, 512]], total_size := 512 }, 512) ∧
    allocate { free_list := [[], [], [], [], [768, 512]], total_size := 512 } 256 1 =
      some (some 768, { free_list := [[], [], [], [], [512]], total_size := 512 }) ∧
    deallocate { free_list := [[], [], [], [], [512]], total_size := 512 } 768 256 1 = none := by
  exact ⟨by decide, by decide, by decide⟩

/-- Claim C2.  The claim states that an oversized request yields `None`
without panicking.  The code violates this: with `ORDERS = 5`
(`MAX_BLOCK_SIZE = 256`), a request of 512 bytes derives `index = 5` and
the final `self.free_list[index].pop_next()` indexes out of bounds — a
panic, modelled by `allocate` returning `none` (instead of
`some (none, _)`, which models a clean `None`). -/
theorem claim_C2_oversized_panic : allocate (Allocator.new 5) 512 1 = none := by
  decide

/-- Claim C3.  Conservation: in every configuration reachable through
`add_memory`, successful `allocate` and matching `deallocate` calls, the
bytes on the free lists plus the bytes of the live allocations equal the
total returned by the `add_memory` calls, which is also `total_size`. -/
theorem claim_C3_conservation {c : Config} (h : Reachable c) :
    freeSum c.alc.free_list + allocSum c.live = c.added ∧
    c.alc.total_size = c.added :=
  ⟨(reachable_inv h).2.2.1, (reachable_inv h).2.2.2⟩

theorem claim_C3_witness :
    freeSum [[], [], [], [], [768, 512]] + allocSum [] = 0 + 512 := by
  have hstep : add_memory (Allocator.new 5) 512 512 =
      some ({ free_list := [[], [], [], [], [768, 512]], total_size := 512 }, 512) := by
    decide
  have hr := Reachable.add_mem 512 512 (Reachable.init 5) hstep
  exact (claim_C3_conservation hr).1

/-- Claim C4.  Alignment invariant: in every reachable configuration,
every address on order `i`'s free list is a multiple of
`MIN_BLOCK_SIZE << i`. -/
theorem claim_C4_alignment {c : Config} (h : Reachable c) :
    ∀ i, i < c.alc.free_list.length → ∀ x, x ∈ getL c.alc.free_list i →
      MIN_BLOCK_SIZE <<< i ∣ x := by
  intro i _ x hx
  have hdvd := ((reachable_inv h).1 i x hx).1
  rw [Nat.shiftLeft_eq, show MIN_BLOCK_SIZE = 2 ^ BASE_ORDER from rfl, ← pow_add]
  rwa [show i + BASE_ORDER = BASE_ORDER + i from by omega] at hdvd

theorem claim_C4_witness : MIN_BLOCK_SIZE <<< 4 ∣ 768 := by
  have hstep : add_memory (Allocator.new 5) 512 512 =
      some ({ free_list := [[], [], [], [], [768, 512]], total_size := 512 }, 512) := by
    decide
  have hr := Reachable.add_mem 512 512 (Reachable.init 5) hstep
  exact claim_C4_alignment hr 4 (by decide) 768 (by decide)

/-- Claim C5, counterexample.  The claim (round-trip for every engine
state and layout) fails on a state reachable with two `add_memory` calls
over adjacent regions: order 1 then holds the buddy pair 96 and 64, an
allocation returns 96, and the immediate deallocation coalesces with 64
into an order-2 block instead of restoring the lists. -/
theorem claim_C5_counterexample :
    add_memory (Allocator.new 3) 64 32 =
      some ({ free_list := [[], [64], []], total_size := 32 }, 32) ∧
    add_memory { free_list := [[], [64], []], total_size := 32 } 96 32 =
      some ({ free_list := [[], [96, 64], []], total_size := 64 }, 32) ∧
    allocate { free_list := [[], [96, 64], []], total_size := 64 } 32 1 =
      some (some 96, { free_list := [[], [64], []], total_size := 64 }) ∧
    deallocate { free_list := [[], [64], []], total_size := 64 } 96 32 1 =
      some { free_list := [[], [], [64]], total_size := 64 } ∧
    ({ free_list := [[], [], [64]], total_size := 64 } : Allocator) ≠
      { free_list := [[], [96, 64], []], total_size := 64 } := by
  exact ⟨by decide, by decide, by decide, by decide, by decide⟩

/-- Claim C5, amended.  Round-trip holds for every state whose free lists
satisfy the alignment invariant with nonzero addresses and contain no
coalescible buddy pair (no two addresses on an order-`i` list differing
exactly in bit `i + BASE_ORDER`): if `allocate` returns an address,
deallocating it at once with the same layout restores the exact state. -/
theorem claim_C5_roundtrip (a : Allocator) (sz al A : Nat) (a' : Allocator)
    (hg : ∀ i, i < a.free_list.length → ∀ x, x ∈ getL a.free_list i →
      2 ^ (i + BASE_ORDER) ∣ x ∧ x ≠ 0)
    (hpair : ∀ i, i < a.free_list.length → ∀ x, x ∈ getL a.free_list i →
      ∀ y, y ∈ getL a.free_list i → x ^^^ 2 ^ (i + BASE_ORDER) ≠ y)
    (halloc : allocate a sz al = some (some A, a')) :
    deallocate a' A sz al = some a := by
  refine roundtrip_restore halloc (goodLists_of_dec hg) ?_
  intro i x y hx hy
  by_cases hi : i < a.free_list.length
  · exact hpair i hi x hx y hy
  · rw [getL_of_ge _ _ (by omega)] at hx
    simp at hx

theorem claim_C5_witness :
    deallocate { free_list := [[], [], []], total_size := 7 } 96 32 1 =
      some { free_list := [[], [96], []], total_size := 7 } := by
  exact claim_C5_roundtrip { free_list := [[], [96], []], total_size := 7 } 32 1 96
    { free_list := [[], [], []], total_size := 7 } (by decide) (by decide) (by decide)

/-- Claim C6.  Functional correctness of `allocate` for an in-range target
order on sound free lists: if every order in `[target, ORDERS)` is empty
the call returns no address (and leaves the state unchanged); otherwise,
with `k` the first non-empty order, the call returns the head `A` of order
`k`'s list, the cascade leaves exactly one sibling `A ||| 2 ^ (j +
BASE_ORDER)` on each order `j` in `[target, k)`, order `k` loses its
head, and every other list is untouched. -/
theorem claim_C6_allocate_correct (a : Allocator) (sz al : Nat)
    (ht : trailing_zeros (block_size sz al) - BASE_ORDER < a.free_list.length)
    (hg : ∀ i, i < a.free_list.length → ∀ x, x ∈ getL a.free_list i →
      2 ^ (i + BASE_ORDER) ∣ x ∧ x ≠ 0) :
    ((∀ j, trailing_zeros (block_size sz al) - BASE_ORDER ≤ j → j < a.free_list.length →
        getL a.free_list j = []) → allocate a sz al = some (none, a)) ∧
    (∀ k, trailing_zeros (block_size sz al) - BASE_ORDER ≤ k → k < a.free_list.length →
      getL a.free_list k ≠ [] →
      (∀ j, trailing_zeros (block_size sz al) - BASE_ORDER ≤ j → j < k →
        getL a.free_list j = []) →
      ∃ A rest a', getL a.free_list k = A :: rest ∧
        allocate a sz al = some (some A, a') ∧
        a'.total_size = a.total_size ∧
        a'.free_list.length = a.free_list.length ∧
        (∀ j, j < trailing_zeros (block_size sz al) - BASE_ORDER →
          getL a'.free_list j = getL a.free_list j) ∧
        (∀ j, trailing_zeros (block_size sz al) - BASE_ORDER ≤ j → j < k →
          getL a'.free_list j = [A ||| 2 ^ (j + BASE_ORDER)]) ∧
        getL a'.free_list k = rest ∧
        (∀ j, k < j → getL a'.free_list j = getL a.free_list j)) := by
  constructor
  · intro hempty
    exact allocate_spec_none sz al ht hempty
  · intro k htk hklt hkne hbelow
    obtain ⟨A, rest, hget⟩ : ∃ A rest, getL a.free_list k = A :: rest := by
      cases hc : getL a.free_list k with
      | nil => exact absurd hc hkne
      | cons x xs => exact ⟨x, xs, rfl⟩
    have hAprops := hg k hklt A (by rw [hget]; exact List.mem_cons_self _ _)
    obtain ⟨a', h1, h2, h3, h4, h5, h6, h7⟩ :=
      allocate_spec_pop sz al k A rest htk hklt hbelow hget hAprops.2
    refine ⟨A, rest, a', hget, h1, h2, h3, h4, ?_, h6, h7⟩
    intro j hj1 hj2
    rw [h5 j hj1 hj2]
    have hor : A ||| 2 ^ (j + BASE_ORDER) = A + 2 ^ (j + BASE_ORDER) := by
      refine or_two_pow_of_dvd ?_
      exact dvd_trans (Nat.pow_dvd_pow 2
        (show j + BASE_ORDER + 1 ≤ k + BASE_ORDER from by omega)) hAprops.1
    rw [hor]

theorem claim_C6_witness :
    ∃ A a', allocate { free_list := [[], [96], []], total_size := 0 } 32 1 =
      some (some A, a') ∧ getL a'.free_list 1 = [] := by
  have h := (claim_C6_allocate_correct { free_list := [[], [96], []], total_size := 0 } 32 1
    (by decide) (by decide)).2 1 (by decide) (by decide) (by decide)
    (fun j h1 h2 => absurd (lt_of_le_of_lt h1 h2) (by decide))
  obtain ⟨A, rest, a', hget, halloc, _, _, _, _, hatk, _⟩ := h
  refine ⟨A, a', halloc, ?_⟩
  rw [hatk]
  injection hget with hh1 hh2
  rw [← hh2]

/-- Claim C7.  One pass of the tiling loop of `add_memory` over a rounded
span (`MIN_BLOCK_SIZE`-aligned, nonzero bounds within the address space)
lays down contiguous blocks: each block's size is the minimum of
`MAX_BLOCK_SIZE`, the largest power of two dividing its start address,
and the largest power of two not exceeding the remaining span; the blocks
tile the whole span, and the loop returns their total, pushing each block
at its order. -/
theorem claim_C7_tiling (orders : Nat) (fl : List (List Nat)) (start e : Nat)
    (horders : 0 < orders)
    (h16 : MIN_BLOCK_SIZE ∣ start) (hpos : 0 < start) (h16e : MIN_BLOCK_SIZE ∣ e)
    (hebound : e ≤ 2 ^ 64) (hlen : fl.length = orders) :
    ∃ bs, addLoop orders e fl start e = some (pushBlocks fl bs, sizesSum bs) ∧
      TilesFrom start e bs ∧ sizesSum bs = e - start ∧
      ∀ p, p ∈ bs → ∃ dp lp, IsMaxPow2Dvd p.1 dp ∧ IsMaxPow2Le (e - p.1) lp ∧
        p.2 = min (MAX_BLOCK_SIZE orders) (min dp lp) :=
  addLoop_tiling horders e start fl e h16 hpos h16e hebound hlen (by omega)

theorem claim_C7_witness :
    ∃ bs, addLoop 5 1024 (List.replicate 5 []) 512 1024 =
      some (pushBlocks (List.replicate 5 []) bs, sizesSum bs) ∧ sizesSum bs = 512 := by
  obtain ⟨bs, h1, h2, h3, h4⟩ := claim_C7_tiling 5 (List.replicate 5 []) 512 1024
    (by norm_num) (by decide) (by norm_num) (by decide) (by norm_num) (by decide)
  exact ⟨bs, h1, by omega⟩

/-- Claim C8.  `add_memory` rounds the pool start up and the exclusive end
down to multiples of `MIN_BLOCK_SIZE`; when the rounded span is shorter
than `MIN_BLOCK_SIZE` it returns 0 and leaves the allocator (free lists
and `total_size`) unchanged. -/
theorem claim_C8_rounding (a : Allocator) (start len : Nat)
    (h1 : start + MIN_BLOCK_SIZE - 1 < 2 ^ 64) (h2 : start + len < 2 ^ 64) :
    (MIN_BLOCK_SIZE ∣ ((start + MIN_BLOCK_SIZE - 1) &&& (2 ^ 64 - MIN_BLOCK_SIZE)) ∧
      start ≤ ((start + MIN_BLOCK_SIZE - 1) &&& (2 ^ 64 - MIN_BLOCK_SIZE)) ∧
      ((start + MIN_BLOCK_SIZE - 1) &&& (2 ^ 64 - MIN_BLOCK_SIZE)) < start + MIN_BLOCK_SIZE) ∧
    (MIN_BLOCK_SIZE ∣ ((start + len) &&& (2 ^ 64 - MIN_BLOCK_SIZE)) ∧
      ((start + len) &&& (2 ^ 64 - MIN_BLOCK_SIZE)) ≤ start + len ∧
      start + len < ((start + len) &&& (2 ^ 64 - MIN_BLOCK_SIZE)) + MIN_BLOCK_SIZE) ∧
    (((start + len) &&& (2 ^ 64 - MIN_BLOCK_SIZE)) <
        ((start + MIN_BLOCK_SIZE - 1) &&& (2 ^ 64 - MIN_BLOCK_SIZE)) + MIN_BLOCK_SIZE →
      add_memory a start len = some (a, 0)) := by
  have hM : MIN_BLOCK_SIZE = 16 := rfl
  rw [hM] at h1
  have hup := land_mask16 h1
  have hdown := land_mask16 h2
  simp only [hM]
  refine ⟨⟨?_, ?_, ?_⟩, ⟨?_, ?_, ?_⟩, ?_⟩
  · rw [hup]; exact ⟨_, rfl⟩
  · rw [hup]; omega
  · rw [hup]; omega
  · rw [hdown]; exact ⟨_, rfl⟩
  · rw [hdown]; omega
  · rw [hdown]; omega
  · intro hsmall
    simp only [add_memory, hM]
    rw [addLoop_done _ _ _ _ _ (by omega)]
    rfl

theorem claim_C8_witness : add_memory (Allocator.new 5) 1 10 = some (Allocator.new 5, 0) := by
  have h := claim_C8_rounding (Allocator.new 5) 1 10 (by decide) (by decide)
  exact h.2.2 (by decide)

/-- Claim C9.  In the claimed scenario (512-byte region, 5-order
allocator, two order-4 blocks registered), the 32 one-byte allocations do
return 32 distinct 16-byte-aligned addresses covering the region, and the
33rd returns no result; but freeing all 32 blocks does not leave two free
order-4 blocks when the region base is 512-aligned: the 32nd `deallocate`
merges the two top-order blocks and pushes at `free_list[5]`, an
out-of-bounds panic (modelled by `deallocSeq` returning `none`). -/
theorem claim_C9_scenario :
    ∃ s1 addrs s2,
      add_memory (Allocator.new 5) 512 512 = some (s1, 512) ∧
      allocMany 32 s1 = some (addrs, s2) ∧
      addrs.length = 32 ∧ addrs.Nodup ∧
      (∀ x, x ∈ addrs → 512 ≤ x ∧ x + 16 ≤ 1024 ∧ 16 ∣ x) ∧
      allocate s2 1 1 = some (none, s2) ∧
      deallocSeq (List.range' 512 32 16) s2 = none := by
  refine ⟨{ free_list := [[], [], [], [], [768, 512]], total_size := 512 },
    [768, 784, 800, 816, 832, 848, 864, 880, 896, 912, 928, 944, 960, 976, 992, 1008,
      512, 528, 544, 560, 576, 592, 608, 624, 640, 656, 672, 688, 704, 720, 736, 752],
    { free_list := [[], [], [], [], []], total_size := 512 },
    by decide, by decide, by decide, by decide, by decide, by decide, by decide⟩

/-- Claim C10.  Frame conditions on `total_size`: `allocate` and
`deallocate` never change it (whatever they return), and `add_memory`
increases it by exactly the number of bytes it reports added. -/
theorem claim_C10_total_size (a : Allocator) (sz al ptr start len : Nat) :
    (∀ r a', allocate a sz al = some (r, a') → a'.total_size = a.total_size) ∧
    (∀ a', deallocate a ptr sz al = some a' → a'.total_size = a.total_size) ∧
    (∀ a' r, add_memory a start len = some (a', r) → a'.total_size = a.total_size + r) :=
  ⟨fun _ _ h => allocate_total h, fun _ h => deallocate_total h,
    fun _ _ h => add_memory_total h⟩

theorem claim_C10_witness :
    ({ free_list := [[], [], [], [], [768, 512]], total_size := 512 } : Allocator).total_size =
      (Allocator.new 5).total_size + 512 := by
  exact (claim_C10_total_size (Allocator.new 5) 1 1 0 512 512).2.2
    { free_list := [[], [], [], [], [768, 512]], total_size := 512 } 512 (by decide)
